import Mathlib

/-!
# nzbget post-processing: `daemon/postprocess/Cleanup.cpp`

A shallow embedding of `CleanupController` (recursive extension clean-up) and
`MoveController` (relocation into the final directory plus renaming of
obfuscated files), together with the properties of the specification that
concern them.

Conventions of the embedding

* A path or file name is a `String`; all character arithmetic goes through
  `String.data`, one `Char` per byte of the C string.
* `BString<1024>("%s%c%s", dir, PATH_SEPARATOR, name)` is `formatPath dir name`:
  the formatted text cut to the 1023 characters the buffer holds.  The
  `std::string` expression `dir + PATH_SEPARATOR + name` is `joinPath dir name`,
  which is never cut.
* `PrintMessage` only feeds the message sink and is left out; instead the
  loops record the filesystem calls they make.
* Primitives of `FileSystem`, `Util`, `Deobfuscation` and `Options` are
  arguments of the embedded functions.
-/

set_option linter.unusedVariables false
set_option maxRecDepth 200000

/-! ## Shared vocabulary -/

/-- The POSIX value of the `PATH_SEPARATOR` constant. -/
def PATH_SEPARATOR : Char := '/'

/-- The `std::string` concatenation `dir + PATH_SEPARATOR + filename`: the full
path of the entry `filename` of the directory `dir`. -/
def joinPath (dir filename : String) : String :=
  ⟨dir.data ++ PATH_SEPARATOR :: filename.data⟩

/-- The text `BString<1024>("%s%c%s", dir, PATH_SEPARATOR, filename)` holds: the
formatted path, of which the buffer of 1024 bytes keeps the first 1023
characters. -/
def formatPath (dir filename : String) : String :=
  ⟨(dir.data ++ PATH_SEPARATOR :: filename.data).take 1023⟩

/-- A directory path of 1004 characters: four components of 250 characters. -/
def longDir : String :=
  ⟨(List.replicate 4 (PATH_SEPARATOR :: List.replicate 250 'd')).flatten⟩

namespace CleanupController

/-- What `Cleanup` sees of a directory: the names `DirBrowser` yields, in the
order of `dir.Next()`, each with the answer of `FileSystem::DirectoryExists`
on the path `fullFilename` formatted for it: `file` when the answer is no,
`dir` when it is yes, then together with what `Cleanup` sees of
`fullFilename`.  As long as the formatted paths are not cut, this is the
directory tree itself. -/
inductive Entry where
  | file (filename : String)
  | dir (filename : String) (entries : List Entry)
  deriving Repr

/-- Result of one `Cleanup` call: the returned `ok`, the value left in
`*deleted`, and the paths handed to `FileSystem::DeleteFile` so far. -/
structure Outcome where
  ok : Bool
  deleted : Bool
  calls : List String
  deriving DecidableEq, Repr

mutual
/-- `CleanupController::Cleanup(destDir, deleted)`.  `M` is
`Util::MatchFileExt(·, g_Options->GetExtCleanupDisk(), ",;")`, `D` is the
outcome of `FileSystem::DeleteFile` on a path.  `deleted` is the cell the
pointer argument refers to on entry, `calls` the deletions attempted before
the call. -/
def Cleanup (M D : String → Bool) (destDir : String) (entries : List Entry)
    (deleted : Bool) (calls : List String) : Outcome :=
  -- *deleted = false; bool ok = true;
  cleanupLoop M D destDir entries true false calls
/-- The `while (const char* filename = dir.Next())` loop of `Cleanup`, with the
local `ok`, the cell `*deleted` and the deletions attempted so far. -/
def cleanupLoop (M D : String → Bool) (destDir : String) :
    List Entry → Bool → Bool → List String → Outcome
  | [], ok, deleted, calls => ⟨ok, deleted, calls⟩
  | Entry.file filename :: rest, ok, deleted, calls =>
      let fullFilename := formatPath destDir filename
      let isDir := false
      let deleteIt := M filename && !isDir
      if deleteIt then
        -- if (!DeleteFile(fullFilename)) ok = false; *deleted = true;
        cleanupLoop M D destDir rest (if !D fullFilename then false else ok) true
          (calls ++ [fullFilename])
      else
        cleanupLoop M D destDir rest ok deleted calls
  | Entry.dir filename sub :: rest, ok, deleted, calls =>
      let fullFilename := formatPath destDir filename
      let isDir := true
      -- if (isDir) ok &= Cleanup(fullFilename, deleted);
      let r := Cleanup M D fullFilename sub deleted calls
      let deleteIt := M filename && !isDir
      if deleteIt then
        cleanupLoop M D destDir rest (if !D fullFilename then false else ok && r.ok) true
          (r.calls ++ [fullFilename])
      else
        cleanupLoop M D destDir rest (ok && r.ok) r.deleted r.calls
end

/-- Specification side: `FileAt destDir entries path filename` says that the
tree listed under `destDir` has, at some depth, a non-directory entry named
`filename` whose full path is `path`. -/
inductive FileAt : String → List Entry → String → String → Prop where
  | direct {destDir : String} {entries : List Entry} {filename : String} :
      Entry.file filename ∈ entries →
      FileAt destDir entries (joinPath destDir filename) filename
  | nested {destDir : String} {entries : List Entry} {dirname : String} {sub : List Entry}
      {path filename : String} :
      Entry.dir dirname sub ∈ entries →
      FileAt (joinPath destDir dirname) sub path filename →
      FileAt destDir entries path filename

/-- A stand-in for `Util::MatchFileExt` with the clean-up list `.nfo`. -/
def matchNfo (filename : String) : Bool :=
  [ '.', 'n', 'f', 'o'].isSuffixOf filename.data

end CleanupController

/-! ## MoveController -/

namespace MoveController

/-- What `MoveController::Run` copies out of the job before it calls
`MoveFiles`: `GetName()`, `m_interDir` and `m_destDir`. -/
structure Job where
  name : String
  interDir : String
  destDir : String
  deriving DecidableEq, Repr

/-- The primitives `MoveFiles` and `SanitizeFilenames` consume, over a state
`σ` of the outside world.  A call that can fail returns its verdict together
with the new state; `DirBrowser` is the listing taken when the browser is
opened. -/
structure Primitives (σ : Type) where
  ForceDirectories : σ → String → Bool × σ
  DirBrowser : σ → String → List String
  MakeValidFilename : String → String
  MakeUniqueFilename : σ → String → String → String
  MoveFile : σ → String → String → Bool × σ
  DeleteDirectoryWithContent : σ → String → Bool × σ
  IsStronglyObfuscated : String → Bool
  EXCLUDED_EXTENSIONS : List String

/-- The constant `std::string::npos` of a 64-bit `size_t`. -/
def npos : Nat := 2 ^ 64 - 1

/-- Left-to-right scan behind `find_last_of`: `i` is the index of the head,
`found` the last index seen so far whose character is in `chars`. -/
def findLastOfAux (chars : List Char) : List Char → Nat → Nat → Nat
  | [], _, found => found
  | c :: cs, i, found => findLastOfAux chars cs (i + 1) (if c ∈ chars then i else found)

/-- `std::string::find_last_of(chars)`: the index of the last character of `s`
that occurs in `chars`, `npos` when there is none. -/
def find_last_of (s chars : String) : Nat :=
  findLastOfAux chars.data s.data 0 npos

/-- `std::string::substr(pos)`: the characters from `pos` to the end; `none`
stands for the `std::out_of_range` thrown when `pos > size()`. -/
def substr (s : String) (pos : Nat) : Option String :=
  if pos > s.data.length then none else some ⟨s.data.drop pos⟩

/-- `startsWith s t` tells whether `t` occurs in `s` at offset 0. -/
def startsWith : List Char → List Char → Bool
  | _, [] => true
  | [], _ :: _ => false
  | a :: s, b :: t => a == b && startsWith s t

/-- Left-to-right scan behind `rfind`: `i` is the offset of the remaining
text, `found` the last offset seen so far at which `t` occurs. -/
def rfindAux (t : List Char) : List Char → Nat → Nat → Nat
  | [], i, found => if startsWith [] t then i else found
  | c :: cs, i, found =>
      rfindAux t cs (i + 1) (if startsWith (c :: cs) t then i else found)

/-- `std::string::rfind(t)`: the last offset at which `t` occurs in `s`, `npos`
when it does not occur. -/
def rfind (s t : String) : Nat :=
  rfindAux t.data s.data 0 npos

/-- The test `filename[0] == '.'` of `MoveFiles`. -/
def hiddenFile (filename : String) : Bool :=
  filename.data.head? == some '.'

/-- One `FileSystem::MoveFile` call: the directory entry it was made for, its
two arguments and its verdict. -/
structure MoveCall where
  filename : String
  srcFile : String
  dstFile : String
  ok : Bool
  deriving DecidableEq, Repr

/-- State after a loop: the flag `ok` (unused by the renaming loop), the world
and the `MoveFile` calls made, in order. -/
structure LoopResult (σ : Type) where
  ok : Bool
  world : σ
  moves : List MoveCall

/-- The `while (const char* filename = dir.Next())` loop of `MoveFiles` over
the listing of `m_interDir`, started with the flag `ok`. -/
def moveLoop {σ : Type} (P : Primitives σ) (job : Job) : List String → σ → Bool → LoopResult σ
  | [], w, ok => ⟨ok, w, []⟩
  | filename :: rest, w, ok =>
      let srcFile := formatPath job.interDir filename
      let dstFile := P.MakeUniqueFilename w job.destDir (P.MakeValidFilename filename)
      let hidden := hiddenFile filename
      let r := P.MoveFile w srcFile dstFile
      let l := moveLoop P job rest r.2 (if !r.1 && !hidden then false else ok)
      ⟨l.ok, l.world, ⟨filename, srcFile, dstFile, r.1⟩ :: l.moves⟩

/-- The destination `SanitizeFilenames` computes for one obfuscated entry:
`MakeUniqueFilename(m_destDir, name)` followed by `srcFile.substr(lastindex)`,
where `lastindex = srcFile.find_last_of(".")`; `none` when `substr` throws. -/
def sanitizedName (destDir filename uniqueName : String) : Option String :=
  let srcFile := joinPath destDir filename
  let lastindex := find_last_of srcFile "."
  match substr srcFile lastindex with
  | none => none
  | some ext => some (uniqueName ++ ext)

/-- The `std::any_of` test of `SanitizeFilenames`: some excluded extension
`ext` has `dstFile.rfind(ext) != std::string::npos`. -/
def excluded (EXCLUDED_EXTENSIONS : List String) (dstFile : String) : Bool :=
  EXCLUDED_EXTENSIONS.any (fun ext => rfind dstFile ext != npos)

/-- The loop of `SanitizeFilenames` over the listing of `m_destDir`; `none`
when an uncaught `std::out_of_range` leaves the function. -/
def sanitizeLoop {σ : Type} (P : Primitives σ) (job : Job) :
    List String → σ → Option (LoopResult σ)
  | [], w => some ⟨true, w, []⟩
  | filename :: rest, w =>
      if !P.IsStronglyObfuscated filename then
        sanitizeLoop P job rest w
      else
        let srcFile := joinPath job.destDir filename
        match sanitizedName job.destDir filename
            (P.MakeUniqueFilename w job.destDir job.name) with
        | none => none
        | some dstFile =>
            if excluded P.EXCLUDED_EXTENSIONS dstFile then
              sanitizeLoop P job rest w
            else
              let r := P.MoveFile w srcFile dstFile
              match sanitizeLoop P job rest r.2 with
              | none => none
              | some l => some ⟨l.ok, l.world, ⟨filename, srcFile, dstFile, r.1⟩ :: l.moves⟩

/-- `MoveController::SanitizeFilenames`. -/
def SanitizeFilenames {σ : Type} (P : Primitives σ) (job : Job) (w : σ) :
    Option (LoopResult σ) :=
  sanitizeLoop P job (P.DirBrowser w job.destDir) w

/-- `MoveController::MoveFiles`: the returned flag and the final world, `none`
when the exception of `SanitizeFilenames` passes through. -/
def MoveFiles {σ : Type} (P : Primitives σ) (job : Job) (w : σ) : Option (Bool × σ) :=
  let f := P.ForceDirectories w job.destDir
  if !f.1 then
    some (false, f.2)
  else
    let l := moveLoop P job (P.DirBrowser f.2 job.interDir) f.2 true
    -- ok && !DeleteDirectoryWithContent(...): the deletion is attempted only when ok
    let w2 := if l.ok then (P.DeleteDirectoryWithContent l.world job.interDir).2 else l.world
    match SanitizeFilenames P job w2 with
    | none => none
    | some s => some (l.ok, s.world)

end MoveController

/-! ## A filesystem for the consumed primitives -/

/-- Modelled from the spec: the filesystem behind the `FileSystem` class and
`DirBrowser`, whose implementation is not among the sources; it is the state
on which the consumed primitives of the specification (`ListEntries`,
`MoveEntry`, `DeleteTreeRecursive`, `EnsureDirectoryTree`, `UniqueName`) act.
`files` maps the full path of a file to a token standing for its content (the
first pair of a path counts), `dirs` lists the directories that exist. -/
structure SimFS where
  files : List (String × Nat)
  dirs : List String
  deriving DecidableEq, Repr

/-- Modelled from the spec: the failures of `FileSystem::ForceDirectories`,
`FileSystem::MoveFile` and `FileSystem::DeleteDirectoryWithContent`, which the
specification leaves open ("may fail", "reported as a boolean"); `true` means
that the call with these arguments fails.  `survives` tells which paths below
a directory are still there after its deletion has failed. -/
structure Faults where
  forceDirectories : String → Bool
  moveFile : String → String → Bool
  deleteDirectory : String → Bool
  survives : String → Bool

namespace SimFS

/-- First content token recorded for `path`. -/
def lookup : List (String × Nat) → String → Option Nat
  | [], _ => none
  | (p, c) :: rest, path => if p = path then some c else lookup rest path

/-- The content found at `path`, if a file exists there. -/
def content (fs : SimFS) (path : String) : Option Nat :=
  lookup fs.files path

/-- Modelled from the spec: `FileSystem::FileExists`, the existence check of a
file. -/
def FileExists (fs : SimFS) (path : String) : Bool :=
  (fs.content path).isSome

/-- Modelled from the spec: `FileSystem::DirectoryExists`, the specification's
`DirectoryExists(path)`. -/
def DirectoryExists (fs : SimFS) (dir : String) : Bool :=
  decide (dir ∈ fs.dirs)

/-- `dropStart pre l` removes the leading `pre` from `l`, if `l` starts with it. -/
def dropStart : List Char → List Char → Option (List Char)
  | [], l => some l
  | _ :: _, [] => none
  | a :: pre, b :: l => if a = b then dropStart pre l else none

/-- Whether `path` lies below the directory `dir`: it is `dir`, a separator
and some more text. -/
def under (dir path : String) : Bool :=
  (dropStart (dir.data ++ [PATH_SEPARATOR]) path.data).isSome

/-- Whether `path` is `dir` or lies below it. -/
def atOrUnder (dir path : String) : Bool :=
  decide (path = dir) || under dir path

/-- Every recorded path, of a file or of a directory. -/
def paths (fs : SimFS) : List String :=
  fs.files.map Prod.fst ++ fs.dirs

/-- Whether something exists at `path` or below it. -/
def occupied (fs : SimFS) (path : String) : Bool :=
  fs.paths.any (fun q => atOrUnder path q)

/-- The name under which `path` is a direct entry of `dir`: `path` is
`dir`, `PATH_SEPARATOR` and a non-empty name without separator. -/
def childName (dir path : String) : Option String :=
  match dropStart (dir.data ++ [PATH_SEPARATOR]) path.data with
  | none => none
  | some name => if name ≠ [] ∧ PATH_SEPARATOR ∉ name then some ⟨name⟩ else none

/-- Modelled from the spec: `DirBrowser`, the specification's `ListEntries(dir)`,
which "yields each direct child name once", files and directories alike. -/
def DirBrowser (fs : SimFS) (dir : String) : List String :=
  (fs.paths.filterMap (childName dir)).dedup

/-- Modelled from the spec: `FileSystem::ForceDirectories`, the specification's
`EnsureDirectoryTree(path)`. -/
def ForceDirectories (F : Faults) (fs : SimFS) (dir : String) : Bool × SimFS :=
  if F.forceDirectories dir then (false, fs)
  else (true, { fs with dirs := if dir ∈ fs.dirs then fs.dirs else dir :: fs.dirs })

/-- The text of `path` before its last separator: the directory it names an
entry of. -/
def parentDir (path : String) : String :=
  ⟨((path.data.reverse.dropWhile (fun c => c != PATH_SEPARATOR)).drop 1).reverse⟩

/-- Where `path` is found after `src` has been renamed to `dst`: `src` itself
becomes `dst`, a path below `src` the same path below `dst`, every other path
stays. -/
def reroot (src dst path : String) : String :=
  if path = src then dst
  else
    match dropStart (src.data ++ [PATH_SEPARATOR]) path.data with
    | some rest => ⟨dst.data ++ PATH_SEPARATOR :: rest⟩
    | none => path

/-- The state after a successful rename of `src` to `dst`: what was at `dst`
is replaced, and `src` with everything below it is found at and below
`dst`. -/
def relocate (fs : SimFS) (src dst : String) : SimFS where
  files := (fs.files.filter (fun e => !atOrUnder dst e.1)).map
    (fun e => (reroot src dst e.1, e.2))
  dirs := (fs.dirs.filter (fun d => !atOrUnder dst d)).map (reroot src dst)

/-- Modelled from the spec: `FileSystem::MoveFile`, the specification's
`MoveEntry(src, dst)`, "atomic-if-possible rename/move; may fail", with the
behaviour of `rename`.  It fails, leaving everything in place, when the fault
is injected or `src` does not exist; renaming a path to itself succeeds and
changes nothing; it fails when `dst` is a directory, unless `src` is a
directory too and nothing lies below `dst`, when `src` is a directory and
`dst` a file, when the directory `dst` is to be an entry of does not exist,
and when `dst` lies below `src`.  Otherwise `src`, with everything below it
when it is a directory, is afterwards found at `dst`, replacing the file or
the empty directory that was there. -/
def MoveFile (F : Faults) (fs : SimFS) (src dst : String) : Bool × SimFS :=
  if F.moveFile src dst || !(fs.FileExists src || fs.DirectoryExists src) then (false, fs)
  else if src = dst then (true, fs)
  else if (fs.DirectoryExists dst && !(fs.DirectoryExists src && !fs.paths.any (under dst)))
      || (fs.DirectoryExists src && fs.FileExists dst)
      || !fs.DirectoryExists (parentDir dst) || under src dst then (false, fs)
  else (true, fs.relocate src dst)

/-- Modelled from the spec: `FileSystem::DeleteDirectoryWithContent`, the
specification's `DeleteTreeRecursive(dir)`: on success the directory and
everything below it are gone; on failure the directory is still there, with
what survives of the paths below it. -/
def DeleteDirectoryWithContent (F : Faults) (fs : SimFS) (dir : String) : Bool × SimFS :=
  if F.deleteDirectory dir then
    (false, {
      files := fs.files.filter (fun e => !under dir e.1 || F.survives e.1),
      dirs := fs.dirs.filter (fun d => !under dir d || F.survives d) })
  else (true, {
    files := fs.files.filter (fun e => !atOrUnder dir e.1),
    dirs := fs.dirs.filter (fun d => !atOrUnder dir d) })

/-- The `k`-th name tried by `MakeUniqueFilename`: the candidate itself, then
the candidate with the suffix `.duplicate1`, `.duplicate2`, … -/
def candidate (dir base : String) : Nat → String
  | 0 => joinPath dir base
  | k + 1 => joinPath dir (base ++ ".duplicate" ++ Nat.repr (k + 1))

/-- Length of the longest path of a list. -/
def longest : List String → Nat
  | [] => 0
  | p :: rest => max p.data.length (longest rest)

/-- Modelled from the spec: `FileSystem::MakeUniqueFilename`, the specification's
`UniqueName(dir, candidate)`, "a name guaranteed not to collide with any
existing entry in that directory at call time", obtained by "appending a
disambiguating suffix … if a name collision would occur": the first free name
among the candidate and its numbered duplicates; should all of the tried
names be taken, a name longer than every existing path. -/
def MakeUniqueFilename (fs : SimFS) (dir base : String) : String :=
  match ((List.range (fs.paths.length + 1)).map (candidate dir base)).find?
      (fun p => !fs.occupied p) with
  | some p => p
  | none => joinPath dir ⟨base.data ++ List.replicate (longest fs.paths + 1) '_'⟩

/-- The contract of `UniqueName`: the returned path lies in the directory asked
for, and nothing exists at it or below it at call time. -/
def UniqueNameContract (U : SimFS → String → String → String) : Prop :=
  ∀ (fs : SimFS) (dir base : String),
    fs.occupied (U fs dir base) = false ∧ under dir (U fs dir base) = true

/-- Something, a file or a directory, exists at `path`. -/
def present (fs : SimFS) (path : String) : Prop :=
  (fs.content path).isSome = true ∨ path ∈ fs.dirs

end SimFS

namespace MoveController

/-- The primitives of `MoveController` over `SimFS`, for a choice of injected
faults `F`, of `MakeUniqueFilename`, of `MakeValidFilename`, of the obfuscation
classifier and of the exclusion list. -/
def simPrimitives (F : Faults) (U : SimFS → String → String → String)
    (V : String → String) (obf : String → Bool) (excl : List String) : Primitives SimFS where
  ForceDirectories := SimFS.ForceDirectories F
  DirBrowser := SimFS.DirBrowser
  MakeValidFilename := V
  MakeUniqueFilename := U
  MoveFile := SimFS.MoveFile F
  DeleteDirectoryWithContent := SimFS.DeleteDirectoryWithContent F
  IsStronglyObfuscated := obf
  EXCLUDED_EXTENSIONS := excl

/-- Specification side: whether every `MoveFile` call the loop of
`SanitizeFilenames` makes over `SimFS` has a destination at and below which
nothing exists when the call is made. -/
def renamesOntoFree (F : Faults) (U : SimFS → String → String → String)
    (obf : String → Bool) (excl : List String) (job : Job) : List String → SimFS → Bool
  | [], _ => true
  | filename :: rest, fs =>
      if !obf filename then
        renamesOntoFree F U obf excl job rest fs
      else
        match sanitizedName job.destDir filename (U fs job.destDir job.name) with
        | none => true
        | some dstFile =>
            if excluded excl dstFile then
              renamesOntoFree F U obf excl job rest fs
            else
              !fs.occupied dstFile &&
                renamesOntoFree F U obf excl job rest
                  (SimFS.MoveFile F fs (joinPath job.destDir filename) dstFile).2

/-- No injected fault. -/
def noFaults : Faults := ⟨fun _ => false, fun _ _ => false, fun _ => false, fun _ => true⟩

/-- Every deletion of a directory fails and removes nothing, no other call
fails. -/
def deleteFails : Faults := ⟨fun _ => false, fun _ _ => false, fun _ => true, fun _ => true⟩

/-- A stand-in for `Deobfuscation::IsStronglyObfuscated`: the name up to its
first `.` consists of exactly 32 lower-case hexadecimal digits. -/
def hexName (filename : String) : Bool :=
  let stem := filename.data.takeWhile (fun c => c != '.')
  stem.length == 32 && stem.all (fun c => c ∈ "0123456789abcdef".data)

/-- A stand-in for `FileSystem::MakeValidFilename`: it drops the characters
`?` and `:`. -/
def dropIllegal (filename : String) : String :=
  ⟨filename.data.filter (fun c => c != '?' && c != ':')⟩

/-- The primitives over `SimFS` with the modelled `MakeUniqueFilename`, the
stand-ins for `MakeValidFilename` and the classifier, and `.par2` as the
exclusion list. -/
def demoPrimitives (F : Faults) : Primitives SimFS :=
  simPrimitives F SimFS.MakeUniqueFilename dropIllegal hexName [".par2"]

/-- A job moving `/inter` into `/final`. -/
def demoJob : Job := ⟨"Job", "/inter", "/final"⟩

/-- A job whose final directory has no `.` anywhere in its path. -/
def dotlessJob : Job := ⟨"Job", "/inter", "/final/Job"⟩

/-- A job whose final directory has `.par2` inside its path. -/
def par2DirJob : Job := ⟨"Job", "/inter", "/downloads/my.par2.set"⟩

/-- The intermediate directory holds one obfuscated entry without extension. -/
def fsDotless : SimFS :=
  ⟨[("/inter/b082fa0beaa644d3aa01045d5b8d0b36", 1)], ["/inter"]⟩

/-- The intermediate directory holds `a.mkv`. -/
def fsOneFile : SimFS := ⟨[("/inter/a.mkv", 1)], ["/inter"]⟩

/-- The intermediate directory holds `a.mkv` and `.hidden.tmp`. -/
def fsWithHidden : SimFS :=
  ⟨[("/inter/a.mkv", 1), ("/inter/.hidden.tmp", 2)], ["/inter"]⟩

/-- The final directory holds two obfuscated entries with the extension `.mkv`. -/
def fsTwoObfuscated : SimFS :=
  ⟨[("/final/b082fa0beaa644d3aa01045d5b8d0b36.mkv", 1),
    ("/final/c193fb1cfbb755e4bb12156e6c9e1c47.mkv", 2)], ["/final"]⟩

/-- The final directory holds `video.mkv`; the intermediate directory holds
`video.mkv` and `video?.mkv`, which both sanitize to `video.mkv`. -/
def fsCollision : SimFS :=
  ⟨[("/final/video.mkv", 1), ("/inter/video.mkv", 2), ("/inter/video?.mkv", 3)],
    ["/final", "/inter"]⟩

/-- A job whose intermediate directory is the final directory itself. -/
def sameDirJob : Job := ⟨"Job", "/final", "/final"⟩

/-- The final directory holds `a.mkv`. -/
def fsFinalOnly : SimFS := ⟨[("/final/a.mkv", 1)], ["/final"]⟩

/-- The intermediate directory holds `a.mkv`, `.hidden.tmp` and the directory
`sub` with the file `b.txt`. -/
def fsWithSubdir : SimFS :=
  ⟨[("/inter/a.mkv", 1), ("/inter/.hidden.tmp", 2), ("/inter/sub/b.txt", 3)],
    ["/inter", "/inter/sub"]⟩

/-- The intermediate directory holds two obfuscated entries with the extension
`.mkv`. -/
def fsTwoObfuscatedInter : SimFS :=
  ⟨[("/inter/b082fa0beaa644d3aa01045d5b8d0b36.mkv", 1),
    ("/inter/c193fb1cfbb755e4bb12156e6c9e1c47.mkv", 2)], ["/inter"]⟩

/-- A job whose intermediate directory `aaaaaaaaaaaaaaaaaax` lies inside its
final directory `longDir`; the path of the intermediate directory has 1024
characters. -/
def nestedLongJob : Job := ⟨"Job", joinPath longDir "aaaaaaaaaaaaaaaaaax", longDir⟩

/-- The final directory `longDir` holds the file `aaaaaaaaaaaaaaaaaa` and the
directory `aaaaaaaaaaaaaaaaaax`, which holds `f.mkv`. -/
def fsNestedLong : SimFS :=
  ⟨[(joinPath longDir "aaaaaaaaaaaaaaaaaa", 1),
    (joinPath (joinPath longDir "aaaaaaaaaaaaaaaaaax") "f.mkv", 2)],
    [longDir, joinPath longDir "aaaaaaaaaaaaaaaaaax"]⟩

/-- The final directory `/downloads/my.par2.set` holds one obfuscated entry
with the extension `.mkv`. -/
def fsPar2Dir : SimFS :=
  ⟨[("/downloads/my.par2.set/b082fa0beaa644d3aa01045d5b8d0b36.mkv", 1)],
    ["/downloads/my.par2.set"]⟩

/-- A job whose final directory `.final` lies inside its intermediate
directory. -/
def insideJob : Job := ⟨"Job", "/inter", "/inter/.final"⟩

/-- A job whose intermediate directory `aaaaaaaaaaaaaaaaaax` lies outside its
final directory `/final`; the path of the intermediate directory has 1024
characters. -/
def longInterJob : Job := ⟨"Job", joinPath longDir "aaaaaaaaaaaaaaaaaax", "/final"⟩

/-- The directory `longDir` holds the file `aaaaaaaaaaaaaaaaaa` and the
intermediate directory `aaaaaaaaaaaaaaaaaax`, which holds `f.mkv`. -/
def fsLongInter : SimFS :=
  ⟨[(joinPath longDir "aaaaaaaaaaaaaaaaaa", 7),
    (joinPath (joinPath longDir "aaaaaaaaaaaaaaaaaax") "f.mkv", 1)],
    [joinPath longDir "aaaaaaaaaaaaaaaaaax"]⟩

/-- A job whose intermediate directory `Job.mkv` lies inside its final
directory. -/
def insideFinalJob : Job := ⟨"Job", "/final/Job.mkv", "/final"⟩

/-- The final directory holds the intermediate directory `Job.mkv`, which holds
`a.mkv`, and an empty directory with an obfuscated name. -/
def fsInsideFinal : SimFS :=
  ⟨[("/final/Job.mkv/a.mkv", 1)],
    ["/final", "/final/Job.mkv", "/final/b082fa0beaa644d3aa01045d5b8d0b36.mkv"]⟩

end MoveController
/-! ## Theorems: paths -/

/-- A formatted path that fits the buffer is the full path. -/
theorem formatPath_of_fits (dir filename : String)
    (h : (joinPath dir filename).data.length ≤ 1023) :
    formatPath dir filename = joinPath dir filename := by
  unfold formatPath joinPath at *
  congr 1
  exact List.take_of_length_le h

/-! ## Theorems: CleanupController -/

namespace CleanupController

/-- C3 (failing input): the root lists the matching file `a.nfo` and then the
empty subdirectory `sub`.  `Cleanup` attempts the deletion of `/r/a.nfo`, yet
leaves `*deleted = false`, because the recursive call on `sub` resets the
shared cell. -/
theorem cleanup_deleted_reset_by_later_subdirectory :
    (Cleanup matchNfo (fun _ => true) "/r"
        [Entry.file "a.nfo", Entry.dir "sub" []] false []).deleted = false ∧
    (Cleanup matchNfo (fun _ => true) "/r"
        [Entry.file "a.nfo", Entry.dir "sub" []] false []).calls = ["/r/a.nfo"] ∧
    FileAt "/r" [Entry.file "a.nfo", Entry.dir "sub" []] "/r/a.nfo" "a.nfo" ∧
    matchNfo "a.nfo" = true := by
  refine ⟨?_, ?_, ?_, by decide⟩
  · simp only [Cleanup, cleanupLoop]
    decide
  · simp only [Cleanup, cleanupLoop]
    decide
  · exact FileAt.direct (List.mem_cons_self _ _)

end CleanupController

/-! ## Theorems: the filesystem of the primitives -/

namespace SimFS

theorem dropStart_some (pre : List Char) :
    ∀ (l r : List Char), dropStart pre l = some r → l = pre ++ r := by
  induction pre with
  | nil => intro l r h; simp [dropStart] at h; simp [h]
  | cons a pre ih =>
    intro l r h
    cases l with
    | nil => simp [dropStart] at h
    | cons b l =>
      simp only [dropStart] at h
      by_cases hab : a = b
      · simp only [hab, if_true] at h
        rw [hab, ih l r h]
        rfl
      · simp [hab] at h

theorem dropStart_append (pre r : List Char) : dropStart pre (pre ++ r) = some r := by
  induction pre with
  | nil => simp [dropStart]
  | cons a pre ih => simp [dropStart, ih]

theorem under_iff (dir path : String) :
    under dir path = true ↔ ∃ r, path.data = dir.data ++ PATH_SEPARATOR :: r := by
  unfold under
  constructor
  · intro h
    cases hd : dropStart (dir.data ++ [PATH_SEPARATOR]) path.data with
    | none => simp [hd] at h
    | some r =>
      refine ⟨r, ?_⟩
      have := dropStart_some _ _ _ hd
      simpa using this
  · rintro ⟨r, hr⟩
    have : path.data = (dir.data ++ [PATH_SEPARATOR]) ++ r := by simpa using hr
    rw [this, dropStart_append]
    rfl

theorem atOrUnder_iff (dir path : String) :
    atOrUnder dir path = true ↔ path = dir ∨ under dir path = true := by
  unfold atOrUnder
  simp

theorem atOrUnder_false_iff (dir path : String) :
    atOrUnder dir path = false ↔ path ≠ dir ∧ under dir path = false := by
  unfold atOrUnder
  simp

theorem atOrUnder_self (path : String) : atOrUnder path path = true := by
  simp [atOrUnder]

theorem under_joinPath (dir name : String) : under dir (joinPath dir name) = true :=
  (under_iff _ _).mpr ⟨name.data, rfl⟩

theorem under_trans (a b c : String) (hab : under a b = true) (hbc : atOrUnder b c = true) :
    under a c = true := by
  rcases (atOrUnder_iff b c).mp hbc with h | h
  · rw [h]
    exact hab
  · obtain ⟨r1, h1⟩ := (under_iff a b).mp hab
    obtain ⟨r2, h2⟩ := (under_iff b c).mp h
    refine (under_iff a c).mpr ⟨r1 ++ PATH_SEPARATOR :: r2, ?_⟩
    rw [h2, h1]
    simp

theorem under_append (dir path ext : String) (h : under dir path = true) :
    under dir (path ++ ext) = true := by
  obtain ⟨r, hr⟩ := (under_iff dir path).mp h
  refine (under_iff _ _).mpr ⟨r ++ ext.data, ?_⟩
  rw [String.data_append, hr]
  simp

theorem under_ne (dir path : String) (h : under dir path = true) : path ≠ dir := by
  obtain ⟨r, hr⟩ := (under_iff dir path).mp h
  intro heq
  rw [heq] at hr
  have := congrArg List.length hr
  simp at this

/-! ### Where a rename puts a path -/

theorem reroot_of_not (src dst path : String) (h : atOrUnder src path = false) :
    reroot src dst path = path := by
  obtain ⟨h1, h2⟩ := (atOrUnder_false_iff _ _).mp h
  unfold reroot
  rw [if_neg h1]
  unfold under at h2
  cases hd : dropStart (src.data ++ [PATH_SEPARATOR]) path.data with
  | none => rfl
  | some r => simp [hd] at h2

theorem reroot_self (src dst : String) : reroot src dst src = dst := by
  simp [reroot]

theorem reroot_under (src dst path : String) (r : List Char)
    (h : path.data = src.data ++ PATH_SEPARATOR :: r) :
    reroot src dst path = ⟨dst.data ++ PATH_SEPARATOR :: r⟩ := by
  have hne : path ≠ src := under_ne src path ((under_iff _ _).mpr ⟨r, h⟩)
  unfold reroot
  rw [if_neg hne]
  have : path.data = (src.data ++ [PATH_SEPARATOR]) ++ r := by simpa using h
  rw [this, dropStart_append]

theorem reroot_atOrUnder (src dst path : String) (h : atOrUnder src path = true) :
    atOrUnder dst (reroot src dst path) = true := by
  rcases (atOrUnder_iff _ _).mp h with h | h
  · rw [h, reroot_self]
    exact atOrUnder_self dst
  · obtain ⟨r, hr⟩ := (under_iff _ _).mp h
    rw [reroot_under src dst path r hr]
    exact (atOrUnder_iff _ _).mpr (Or.inr ((under_iff _ _).mpr ⟨r, rfl⟩))

theorem reroot_inj (src dst p1 p2 : String) (h1 : atOrUnder src p1 = true)
    (h2 : atOrUnder src p2 = true) (h : reroot src dst p1 = reroot src dst p2) : p1 = p2 := by
  rcases (atOrUnder_iff _ _).mp h1 with e1 | u1 <;>
    rcases (atOrUnder_iff _ _).mp h2 with e2 | u2
  · rw [e1, e2]
  · exfalso
    obtain ⟨r, hr⟩ := (under_iff _ _).mp u2
    rw [e1, reroot_self, reroot_under src dst p2 r hr] at h
    have := congrArg (fun s => s.data.length) h
    simp at this
  · exfalso
    obtain ⟨r, hr⟩ := (under_iff _ _).mp u1
    rw [e2, reroot_self, reroot_under src dst p1 r hr] at h
    have := congrArg (fun s => s.data.length) h
    simp at this
  · obtain ⟨r1, hr1⟩ := (under_iff _ _).mp u1
    obtain ⟨r2, hr2⟩ := (under_iff _ _).mp u2
    rw [reroot_under src dst p1 r1 hr1, reroot_under src dst p2 r2 hr2] at h
    have hd : dst.data ++ PATH_SEPARATOR :: r1 = dst.data ++ PATH_SEPARATOR :: r2 :=
      congrArg String.data h
    have hr : r1 = r2 := List.tail_eq_of_cons_eq (List.append_cancel_left hd)
    apply String.ext
    rw [hr1, hr2, hr]

/-! ### Lookups -/

theorem lookup_isSome_of_mem (l : List (String × Nat)) (p : String) (c : Nat)
    (h : (p, c) ∈ l) : (lookup l p).isSome = true := by
  induction l with
  | nil => simp at h
  | cons e rest ih =>
    obtain ⟨p', c'⟩ := e
    simp only [lookup]
    by_cases hp : p' = p
    · simp [hp]
    · simp only [hp, if_false]
      rcases List.mem_cons.mp h with h | h
      · cases h
        exact absurd rfl hp
      · exact ih h

theorem mem_of_lookup (l : List (String × Nat)) (p : String) (c : Nat)
    (h : lookup l p = some c) : (p, c) ∈ l := by
  induction l with
  | nil => simp [lookup] at h
  | cons e rest ih =>
    obtain ⟨p', c'⟩ := e
    simp only [lookup] at h
    by_cases hp : p' = p
    · simp only [hp, if_true, Option.some.injEq] at h
      rw [hp, h]
      exact List.mem_cons_self _ _
    · simp only [hp, if_false] at h
      exact List.mem_cons_of_mem _ (ih h)

theorem lookup_none_of_longest (l : List (String × Nat)) (p : String)
    (h : longest (l.map Prod.fst) < p.data.length) : lookup l p = none := by
  induction l with
  | nil => simp [lookup]
  | cons e rest ih =>
    obtain ⟨p', c'⟩ := e
    simp only [List.map_cons, longest] at h
    simp only [lookup]
    by_cases hp : p' = p
    · subst hp
      omega
    · simp only [hp, if_false]
      exact ih (by omega)

theorem length_le_longest (l : List String) (q : String) (h : q ∈ l) :
    q.data.length ≤ longest l := by
  induction l with
  | nil => simp at h
  | cons p rest ih =>
    simp only [longest]
    rcases List.mem_cons.mp h with h | h
    · rw [h]
      omega
    · have := ih h
      omega

/-- Dropping from the list only pairs of other paths leaves the lookup of
`q` as it is. -/
theorem lookup_filter_keep (keep : String × Nat → Bool) (q : String)
    (hkeep : ∀ c, keep (q, c) = true) :
    ∀ l : List (String × Nat), lookup (l.filter keep) q = lookup l q := by
  intro l
  induction l with
  | nil => simp [lookup]
  | cons e rest ih =>
    obtain ⟨p, c⟩ := e
    by_cases hk : keep (p, c) = true
    · rw [List.filter_cons_of_pos hk]
      simp only [lookup, ih]
    · rw [List.filter_cons_of_neg hk, ih]
      have hp : ¬ p = q := by
        intro h
        rw [h] at hk
        exact hk (hkeep c)
      simp [lookup, hp]

/-- A path that is neither at or below the source nor at or below the
destination of a rename is looked up as before. -/
theorem lookup_relocate_frame (src dst q : String) (hs : atOrUnder src q = false)
    (hd : atOrUnder dst q = false) :
    ∀ l : List (String × Nat),
      lookup ((l.filter (fun e => !atOrUnder dst e.1)).map
        (fun e => (reroot src dst e.1, e.2))) q = lookup l q := by
  intro l
  induction l with
  | nil => simp [lookup]
  | cons e rest ih =>
    obtain ⟨p, c⟩ := e
    by_cases hk : atOrUnder dst p = true
    · rw [List.filter_cons_of_neg (by simp [hk]), ih]
      have hp : ¬ p = q := by
        intro h
        rw [h, hd] at hk
        cases hk
      simp [lookup, hp]
    · rw [List.filter_cons_of_pos (by simpa using hk)]
      simp only [List.map_cons, lookup, ih]
      by_cases hp : p = q
      · subst hp
        rw [reroot_of_not src dst p hs]
      · have hr : ¬ reroot src dst p = q := by
          intro h
          by_cases hsp : atOrUnder src p = true
          · have := reroot_atOrUnder src dst p hsp
            rw [h, hd] at this
            cases this
          · rw [reroot_of_not src dst p (by simpa using hsp)] at h
            exact hp h
        simp [hp, hr]

/-- When nothing of the list is at or below the destination, a path at or
below the source is looked up at its new place as it was at its old one. -/
theorem lookup_relocate_landing (src dst p : String) (hp : atOrUnder src p = true) :
    ∀ l : List (String × Nat), (∀ e ∈ l, atOrUnder dst e.1 = false) →
      lookup (l.map (fun e => (reroot src dst e.1, e.2))) (reroot src dst p) = lookup l p := by
  intro l
  induction l with
  | nil => intro _; simp [lookup]
  | cons e rest ih =>
    intro hfree
    obtain ⟨p1, c1⟩ := e
    have ih := ih (fun e he => hfree e (List.mem_cons_of_mem _ he))
    simp only [List.map_cons, lookup, ih]
    by_cases h1 : p1 = p
    · simp [h1]
    · have hr : ¬ reroot src dst p1 = reroot src dst p := by
        intro h
        by_cases hsp : atOrUnder src p1 = true
        · exact h1 (reroot_inj src dst p1 p hsp hp h)
        · rw [reroot_of_not src dst p1 (by simpa using hsp)] at h
          have h2 := reroot_atOrUnder src dst p hp
          rw [← h] at h2
          have h3 := hfree (p1, c1) (List.mem_cons_self _ _)
          simp only at h3
          rw [h3] at h2
          cases h2
      simp [h1, hr]

/-! ### Presence -/

theorem mem_paths_of_content (fs : SimFS) (q : String) (c : Nat)
    (h : fs.content q = some c) : q ∈ fs.paths := by
  unfold paths
  apply List.mem_append_left
  exact List.mem_map.mpr ⟨(q, c), mem_of_lookup _ _ _ h, rfl⟩

theorem mem_paths_of_present (fs : SimFS) (q : String) (h : fs.present q) : q ∈ fs.paths := by
  rcases h with h | h
  · cases hc : fs.content q with
    | none => simp [hc] at h
    | some c => exact mem_paths_of_content fs q c hc
  · exact List.mem_append_right _ h

theorem not_atOrUnder_of_free (fs : SimFS) (p q : String) (hfree : fs.occupied p = false)
    (hq : q ∈ fs.paths) : atOrUnder p q = false := by
  unfold occupied at hfree
  cases h : atOrUnder p q
  · rfl
  · have : fs.paths.any (fun q => atOrUnder p q) = true :=
      List.any_eq_true.mpr ⟨q, hq, h⟩
    rw [this] at hfree
    cases hfree

theorem occupied_of_present (fs : SimFS) (q : String) (h : fs.present q) :
    fs.occupied q = true := by
  unfold occupied
  exact List.any_eq_true.mpr ⟨q, mem_paths_of_present fs q h, atOrUnder_self q⟩

/-! ### The primitives -/

theorem ForceDirectories_files (F : Faults) (fs : SimFS) (dir : String) :
    (ForceDirectories F fs dir).2.files = fs.files := by
  unfold ForceDirectories
  by_cases h : F.forceDirectories dir = true <;> simp [h]

theorem ForceDirectories_content (F : Faults) (fs : SimFS) (dir q : String) :
    (ForceDirectories F fs dir).2.content q = fs.content q := by
  unfold content
  rw [ForceDirectories_files]

theorem childName_some (dir path name : String) (h : childName dir path = some name) :
    path = joinPath dir name ∧ PATH_SEPARATOR ∉ name.data := by
  unfold childName at h
  cases hd : dropStart (dir.data ++ [PATH_SEPARATOR]) path.data with
  | none => simp [hd] at h
  | some r =>
    simp only [hd] at h
    by_cases hc : r ≠ [] ∧ PATH_SEPARATOR ∉ r
    · simp only [hc, and_self, if_true, Option.some.injEq, not_false_eq_true, ne_eq] at h
      subst h
      refine ⟨?_, hc.2⟩
      apply String.ext
      have := dropStart_some _ _ _ hd
      simp [joinPath, this]
    · simp [hc] at h

theorem DirBrowser_sep (fs : SimFS) (dir name : String) (h : name ∈ DirBrowser fs dir) :
    PATH_SEPARATOR ∉ name.data := by
  unfold DirBrowser at h
  rw [List.mem_dedup, List.mem_filterMap] at h
  obtain ⟨p, _, hchild⟩ := h
  exact (childName_some dir p name hchild).2

/-- Creating a directory that does not lie below `dir` leaves the listing of
`dir` as it is. -/
theorem DirBrowser_ForceDirectories (F : Faults) (fs : SimFS) (dir created : String)
    (h : under dir created = false) :
    DirBrowser (ForceDirectories F fs created).2 dir = DirBrowser fs dir := by
  have hchild : childName dir created = none := by
    cases hc : childName dir created with
    | none => rfl
    | some n =>
      have := (childName_some dir created n hc).1
      rw [this, under_joinPath] at h
      cases h
  unfold ForceDirectories
  by_cases hF : F.forceDirectories created = true
  · simp [hF]
  · simp only [hF, Bool.false_eq_true, if_false]
    by_cases hmem : created ∈ fs.dirs
    · simp [hmem]
    · unfold DirBrowser paths
      simp only [hmem, if_false, List.filterMap_append, List.filterMap_cons, hchild]

theorem DeleteDirectoryWithContent_true (F : Faults) (fs : SimFS) (dir : String)
    (h : (DeleteDirectoryWithContent F fs dir).1 = true) :
    dir ∉ (DeleteDirectoryWithContent F fs dir).2.dirs := by
  unfold DeleteDirectoryWithContent at h ⊢
  by_cases hF : F.deleteDirectory dir = true
  · simp [hF] at h
  · simp [hF, atOrUnder_self]

theorem DeleteDirectoryWithContent_content (F : Faults) (fs : SimFS) (dir q : String)
    (hq : atOrUnder dir q = false) :
    (DeleteDirectoryWithContent F fs dir).2.content q = fs.content q := by
  unfold DeleteDirectoryWithContent
  by_cases hF : F.deleteDirectory dir = true
  · simp only [hF, if_true, content]
    exact lookup_filter_keep _ q
      (fun c => by simp [((atOrUnder_false_iff dir q).mp hq).2]) fs.files
  · simp only [hF, Bool.false_eq_true, if_false, content]
    exact lookup_filter_keep _ q (fun c => by simp [hq]) fs.files

/-- The three ways a `MoveFile` call ends. -/
theorem MoveFile_cases (F : Faults) (fs : SimFS) (src dst : String) :
    ((MoveFile F fs src dst).1 = false ∧ (MoveFile F fs src dst).2 = fs) ∨
    ((MoveFile F fs src dst).1 = true ∧ src = dst ∧
      (fs.FileExists src = true ∨ fs.DirectoryExists src = true) ∧
      (MoveFile F fs src dst).2 = fs) ∨
    ((MoveFile F fs src dst).1 = true ∧ src ≠ dst ∧ under src dst = false ∧
      (fs.FileExists src = true ∨ fs.DirectoryExists src = true) ∧
      (MoveFile F fs src dst).2 = fs.relocate src dst) := by
  unfold MoveFile
  by_cases h1 : (F.moveFile src dst || !(fs.FileExists src || fs.DirectoryExists src)) = true
  · left
    rw [if_pos h1]
    exact ⟨rfl, rfl⟩
  · rw [if_neg h1]
    have hex : fs.FileExists src = true ∨ fs.DirectoryExists src = true := by
      cases hf : fs.FileExists src
      · cases hd : fs.DirectoryExists src
        · exfalso
          apply h1
          simp [hf, hd]
        · exact Or.inr rfl
      · exact Or.inl rfl
    by_cases h2 : src = dst
    · right; left
      rw [if_pos h2]
      exact ⟨rfl, h2, hex, rfl⟩
    · rw [if_neg h2]
      by_cases h3 : ((fs.DirectoryExists dst
            && !(fs.DirectoryExists src && !fs.paths.any (under dst)))
          || (fs.DirectoryExists src && fs.FileExists dst)
          || !fs.DirectoryExists (parentDir dst) || under src dst) = true
      · left
        rw [if_pos h3]
        exact ⟨rfl, rfl⟩
      · right; right
        rw [if_neg h3]
        refine ⟨rfl, h2, ?_, hex, rfl⟩
        cases hu : under src dst
        · rfl
        · exfalso
          apply h3
          simp [hu]

theorem present_of_exists (fs : SimFS) (p : String)
    (h : fs.FileExists p = true ∨ fs.DirectoryExists p = true) : fs.present p := by
  rcases h with h | h
  · exact Or.inl h
  · exact Or.inr (by simpa [DirectoryExists] using h)

theorem relocate_content_frame (fs : SimFS) (src dst q : String)
    (hs : atOrUnder src q = false) (hd : atOrUnder dst q = false) :
    (fs.relocate src dst).content q = fs.content q :=
  lookup_relocate_frame src dst q hs hd fs.files

theorem relocate_dirs_frame (fs : SimFS) (src dst q : String)
    (hs : atOrUnder src q = false) (hd : atOrUnder dst q = false) (hq : q ∈ fs.dirs) :
    q ∈ (fs.relocate src dst).dirs := by
  unfold relocate
  simp only
  refine List.mem_map.mpr ⟨q, ?_, reroot_of_not src dst q hs⟩
  exact List.mem_filter.mpr ⟨hq, by simp [hd]⟩

theorem relocate_content_landing (fs : SimFS) (src dst p : String)
    (hfree : fs.occupied dst = false) (hp : atOrUnder src p = true) :
    (fs.relocate src dst).content (reroot src dst p) = fs.content p := by
  have hall : ∀ e ∈ fs.files, atOrUnder dst e.1 = false := by
    intro e he
    apply not_atOrUnder_of_free fs dst e.1 hfree
    unfold paths
    exact List.mem_append_left _ (List.mem_map.mpr ⟨e, he, rfl⟩)
  have hfilter : fs.files.filter (fun e => !atOrUnder dst e.1) = fs.files := by
    apply List.filter_eq_self.mpr
    intro e he
    simp [hall e he]
  unfold relocate content
  simp only [hfilter]
  exact lookup_relocate_landing src dst p hp fs.files hall

theorem relocate_dirs_landing (fs : SimFS) (src dst p : String)
    (hfree : fs.occupied dst = false) (hp : p ∈ fs.dirs) :
    reroot src dst p ∈ (fs.relocate src dst).dirs := by
  unfold relocate
  simp only
  refine List.mem_map.mpr ⟨p, List.mem_filter.mpr ⟨hp, ?_⟩, rfl⟩
  have := not_atOrUnder_of_free fs dst p hfree (List.mem_append_right _ hp)
  simp [this]

theorem relocate_dirs_origin (fs : SimFS) (src dst d : String)
    (h : d ∈ (fs.relocate src dst).dirs) : ∃ d0 ∈ fs.dirs, d = reroot src dst d0 := by
  unfold relocate at h
  simp only at h
  obtain ⟨d0, hd0, heq⟩ := List.mem_map.mp h
  exact ⟨d0, (List.mem_filter.mp hd0).1, heq.symm⟩

/-- The model of `MakeUniqueFilename` meets the contract of `UniqueName`. -/
theorem MakeUniqueFilename_contract : UniqueNameContract MakeUniqueFilename := by
  intro fs dir base
  unfold MakeUniqueFilename
  cases hfind : ((List.range (fs.paths.length + 1)).map (candidate dir base)).find?
      (fun p => !fs.occupied p) with
  | some p =>
    have hfree := List.find?_some hfind
    have hmem := List.mem_of_find?_eq_some hfind
    simp only
    refine ⟨by simpa using hfree, ?_⟩
    obtain ⟨k, _, hk⟩ := List.mem_map.mp hmem
    rw [← hk]
    cases k with
    | zero => exact under_joinPath _ _
    | succ k => exact under_joinPath _ _
  | none =>
    simp only
    refine ⟨?_, under_joinPath _ _⟩
    unfold occupied
    cases hany : fs.paths.any (fun q => atOrUnder
        (joinPath dir ⟨base.data ++ List.replicate (longest fs.paths + 1) '_'⟩) q)
    · rfl
    · exfalso
      obtain ⟨q, hq, hat⟩ := List.any_eq_true.mp hany
      have hlen := length_le_longest fs.paths q hq
      rcases (atOrUnder_iff _ _).mp hat with h | h
      · rw [h] at hlen
        simp [joinPath] at hlen
        omega
      · obtain ⟨r, hr⟩ := (under_iff _ _).mp h
        rw [hr] at hlen
        simp [joinPath] at hlen
        omega

end SimFS

/-! ## Theorems: MoveController -/

namespace MoveController

/-- Two full paths built from separator-free names agree, up to what follows
the second, only if the directory of the first is the second directory or
lies below it. -/
theorem join_inside (inter dest f : String) (w : List Char)
    (hf : PATH_SEPARATOR ∉ f.data)
    (h : inter.data ++ PATH_SEPARATOR :: f.data = dest.data ++ PATH_SEPARATOR :: w) :
    SimFS.atOrUnder dest inter = true := by
  rcases List.append_eq_append_iff.mp h with ⟨a, ha, hb⟩ | ⟨a, ha, hb⟩
  · cases a with
    | nil =>
      have : inter = dest := String.ext (by simpa using ha.symm)
      rw [this]
      exact SimFS.atOrUnder_self dest
    | cons x a =>
      exfalso
      simp only [List.cons_append, List.cons.injEq] at hb
      apply hf
      rw [hb.2]
      simp
  · cases a with
    | nil =>
      have : inter = dest := String.ext (by simpa using ha)
      rw [this]
      exact SimFS.atOrUnder_self dest
    | cons x a =>
      simp only [List.cons_append, List.cons.injEq] at hb
      refine (SimFS.atOrUnder_iff _ _).mpr (Or.inr ((SimFS.under_iff _ _).mpr ⟨a, ?_⟩))
      rw [ha, ← hb.1]

/-- The source path formatted for an entry of the intermediate directory is
neither a path below the final directory nor above one, when the intermediate
directory is neither the final directory nor inside it, and the destination
lies in the final directory but not below the source. -/
theorem source_misses_final (inter dest f dst q : String)
    (hf : PATH_SEPARATOR ∉ f.data)
    (hsep : SimFS.atOrUnder dest inter = false)
    (hdst : SimFS.under dest dst = true)
    (hmove : SimFS.under (formatPath inter f) dst = false)
    (hq : SimFS.under dest q = true) :
    SimFS.atOrUnder (formatPath inter f) q = false := by
  cases hat : SimFS.atOrUnder (formatPath inter f) q
  · rfl
  · exfalso
    obtain ⟨r, hr⟩ := (SimFS.under_iff _ _).mp hq
    obtain ⟨r3, hr3⟩ := (SimFS.under_iff _ _).mp hdst
    have hcut : inter.data ++ PATH_SEPARATOR :: f.data
        = (formatPath inter f).data
          ++ (inter.data ++ PATH_SEPARATOR :: f.data).drop 1023 := by
      simp [formatPath]
    have hnot : ∀ w, (formatPath inter f).data ≠ dest.data ++ PATH_SEPARATOR :: w := by
      intro w hw
      rw [hw] at hcut
      have := join_inside inter dest f _ hf (by simpa using hcut)
      rw [hsep] at this
      cases this
    rcases (SimFS.atOrUnder_iff _ _).mp hat with h | h
    · apply hnot r
      rw [← h]
      exact hr
    · obtain ⟨r2, hr2⟩ := (SimFS.under_iff _ _).mp h
      rw [hr] at hr2
      rcases List.append_eq_append_iff.mp hr2 with ⟨a, ha, hb⟩ | ⟨a, ha, hb⟩
      · -- the source lies at or below the final directory
        cases a with
        | nil =>
          have hS : (formatPath inter f).data = dest.data := by simpa using ha
          have : SimFS.under (formatPath inter f) dst = true :=
            (SimFS.under_iff _ _).mpr ⟨r3, by rw [hr3, hS]⟩
          rw [hmove] at this
          cases this
        | cons x a =>
          simp only [List.cons_append, List.cons.injEq] at hb
          apply hnot a
          rw [ha, ← hb.1]
      · -- the final directory lies at or below the source
        cases a with
        | nil =>
          have hS : (formatPath inter f).data = dest.data := by simpa using ha.symm
          have : SimFS.under (formatPath inter f) dst = true :=
            (SimFS.under_iff _ _).mpr ⟨r3, by rw [hr3, hS]⟩
          rw [hmove] at this
          cases this
        | cons x a =>
          simp only [List.cons_append, List.cons.injEq] at hb
          have : SimFS.under (formatPath inter f) dst = true := by
            refine (SimFS.under_iff _ _).mpr ⟨a ++ PATH_SEPARATOR :: r3, ?_⟩
            rw [hr3, ha, ← hb.1]
            simp
          rw [hmove] at this
          cases this

/-- A path below the final directory lies neither at nor below the
intermediate directory when neither directory is the other or inside it. -/
theorem final_misses_intermediate (inter dest q : String)
    (h1 : SimFS.atOrUnder dest inter = false) (h2 : SimFS.atOrUnder inter dest = false)
    (hq : SimFS.under dest q = true) : SimFS.atOrUnder inter q = false := by
  cases hat : SimFS.atOrUnder inter q
  · rfl
  · exfalso
    have hq' : SimFS.atOrUnder dest q = true := (SimFS.atOrUnder_iff _ _).mpr (Or.inr hq)
    obtain ⟨r, hr⟩ := (SimFS.under_iff _ _).mp hq
    rcases (SimFS.atOrUnder_iff _ _).mp hat with h | h
    · rw [h] at hq'
      rw [h1] at hq'
      cases hq'
    · obtain ⟨r2, hr2⟩ := (SimFS.under_iff _ _).mp h
      rw [hr] at hr2
      rcases List.append_eq_append_iff.mp hr2 with ⟨a, ha, hb⟩ | ⟨a, ha, hb⟩
      · cases a with
        | nil =>
          have : inter = dest := String.ext (by simpa using ha)
          rw [this, SimFS.atOrUnder_self] at h1
          cases h1
        | cons x a =>
          simp only [List.cons_append, List.cons.injEq] at hb
          have : SimFS.atOrUnder dest inter = true :=
            (SimFS.atOrUnder_iff _ _).mpr (Or.inr ((SimFS.under_iff _ _).mpr ⟨a, by rw [ha, ← hb.1]⟩))
          rw [h1] at this
          cases this
      · cases a with
        | nil =>
          have : inter = dest := String.ext (by simpa using ha.symm)
          rw [this, SimFS.atOrUnder_self] at h1
          cases h1
        | cons x a =>
          simp only [List.cons_append, List.cons.injEq] at hb
          have : SimFS.atOrUnder inter dest = true :=
            (SimFS.atOrUnder_iff _ _).mpr (Or.inr ((SimFS.under_iff _ _).mpr ⟨a, by rw [ha, ← hb.1]⟩))
          rw [h2] at this
          cases this

theorem moveLoop_nil {σ : Type} (P : Primitives σ) (job : Job) (w : σ) (ok : Bool) :
    moveLoop P job [] w ok = ⟨ok, w, []⟩ := rfl

theorem moveLoop_cons {σ : Type} (P : Primitives σ) (job : Job) (filename : String)
    (rest : List String) (w : σ) (ok : Bool) :
    moveLoop P job (filename :: rest) w ok =
      ⟨(moveLoop P job rest
          (P.MoveFile w (formatPath job.interDir filename)
            (P.MakeUniqueFilename w job.destDir (P.MakeValidFilename filename))).2
          (if !(P.MoveFile w (formatPath job.interDir filename)
              (P.MakeUniqueFilename w job.destDir (P.MakeValidFilename filename))).1
              && !hiddenFile filename then false else ok)).ok,
       (moveLoop P job rest
          (P.MoveFile w (formatPath job.interDir filename)
            (P.MakeUniqueFilename w job.destDir (P.MakeValidFilename filename))).2
          (if !(P.MoveFile w (formatPath job.interDir filename)
              (P.MakeUniqueFilename w job.destDir (P.MakeValidFilename filename))).1
              && !hiddenFile filename then false else ok)).world,
       ⟨filename, formatPath job.interDir filename,
          P.MakeUniqueFilename w job.destDir (P.MakeValidFilename filename),
          (P.MoveFile w (formatPath job.interDir filename)
            (P.MakeUniqueFilename w job.destDir (P.MakeValidFilename filename))).1⟩ ::
        (moveLoop P job rest
          (P.MoveFile w (formatPath job.interDir filename)
            (P.MakeUniqueFilename w job.destDir (P.MakeValidFilename filename))).2
          (if !(P.MoveFile w (formatPath job.interDir filename)
              (P.MakeUniqueFilename w job.destDir (P.MakeValidFilename filename))).1
              && !hiddenFile filename then false else ok)).moves⟩ := rfl

/-- The flag the loop ends with: the flag it started with, and every call made
for a non-hidden entry succeeded.  One call is made per listed entry. -/
theorem moveLoop_verdict {σ : Type} (P : Primitives σ) (job : Job) :
    ∀ (entries : List String) (w : σ) (ok : Bool),
      (moveLoop P job entries w ok).ok
        = (ok && (moveLoop P job entries w ok).moves.all
            (fun m => m.ok || hiddenFile m.filename)) ∧
      (moveLoop P job entries w ok).moves.map MoveCall.filename = entries := by
  intro entries
  induction entries with
  | nil => intro w ok; simp [moveLoop_nil]
  | cons f rest ih =>
    intro w ok
    rw [moveLoop_cons]
    simp only [List.all_cons, List.map_cons]
    obtain ⟨h1, h2⟩ := ih
      (P.MoveFile w (formatPath job.interDir f)
        (P.MakeUniqueFilename w job.destDir (P.MakeValidFilename f))).2
      (if !(P.MoveFile w (formatPath job.interDir f)
          (P.MakeUniqueFilename w job.destDir (P.MakeValidFilename f))).1
          && !hiddenFile f then false else ok)
    refine ⟨?_, by rw [h2]⟩
    rw [h1]
    cases (P.MoveFile w (formatPath job.interDir f)
        (P.MakeUniqueFilename w job.destDir (P.MakeValidFilename f))).1 <;>
      cases hiddenFile f <;> cases ok <;> simp

/-- What a returned `true` of `MoveFiles` tells about the run. -/
theorem MoveFiles_true {σ : Type} (P : Primitives σ) (job : Job) (w w2 : σ)
    (h : MoveFiles P job w = some (true, w2)) :
    (P.ForceDirectories w job.destDir).1 = true ∧
    (moveLoop P job (P.DirBrowser (P.ForceDirectories w job.destDir).2 job.interDir)
        (P.ForceDirectories w job.destDir).2 true).ok = true ∧
    ∃ s, SanitizeFilenames P job
        (P.DeleteDirectoryWithContent
          (moveLoop P job (P.DirBrowser (P.ForceDirectories w job.destDir).2 job.interDir)
            (P.ForceDirectories w job.destDir).2 true).world job.interDir).2 = some s ∧
      s.world = w2 := by
  unfold MoveFiles at h
  by_cases hf : (P.ForceDirectories w job.destDir).1 = true
  · simp only [hf, Bool.not_true, Bool.false_eq_true, if_false] at h
    by_cases hl : (moveLoop P job (P.DirBrowser (P.ForceDirectories w job.destDir).2 job.interDir)
        (P.ForceDirectories w job.destDir).2 true).ok = true
    · simp only [hl, if_true] at h
      refine ⟨hf, hl, ?_⟩
      cases hs : SanitizeFilenames P job
        (P.DeleteDirectoryWithContent
          (moveLoop P job (P.DirBrowser (P.ForceDirectories w job.destDir).2 job.interDir)
            (P.ForceDirectories w job.destDir).2 true).world job.interDir).2 with
      | none => simp [hs] at h
      | some s =>
        simp only [hs, Option.some.injEq, Prod.mk.injEq, true_and] at h
        exact ⟨s, rfl, h⟩
    · exfalso
      simp only [hl, Bool.false_eq_true, if_false] at h
      cases hs : SanitizeFilenames P job
          (moveLoop P job (P.DirBrowser (P.ForceDirectories w job.destDir).2 job.interDir)
            (P.ForceDirectories w job.destDir).2 true).world with
      | none => simp [hs] at h
      | some s =>
        simp [hs] at h
  · simp [hf] at h

/-- The value `MoveFiles` returns, when it returns: `true` exactly when
`ForceDirectories` succeeded and every `MoveFile` call made for a non-hidden
entry of the intermediate directory succeeded. -/
theorem MoveFiles_verdict {σ : Type} (P : Primitives σ) (job : Job) (w w2 : σ) (b : Bool)
    (h : MoveFiles P job w = some (b, w2)) :
    b = true ↔
      ((P.ForceDirectories w job.destDir).1 = true ∧
        ∀ m ∈ (moveLoop P job (P.DirBrowser (P.ForceDirectories w job.destDir).2 job.interDir)
            (P.ForceDirectories w job.destDir).2 true).moves,
          hiddenFile m.filename = false → m.ok = true) := by
  have hv := (moveLoop_verdict P job
    (P.DirBrowser (P.ForceDirectories w job.destDir).2 job.interDir)
    (P.ForceDirectories w job.destDir).2 true).1
  unfold MoveFiles at h
  by_cases hf : (P.ForceDirectories w job.destDir).1 = true
  · simp only [hf, Bool.not_true, Bool.false_eq_true, if_false] at h
    have hb : b = (moveLoop P job (P.DirBrowser (P.ForceDirectories w job.destDir).2 job.interDir)
        (P.ForceDirectories w job.destDir).2 true).ok := by
      revert h
      cases SanitizeFilenames P job _ with
      | none => intro h; simp at h
      | some s => intro h; simp at h; exact h.1.symm
    rw [hb, hv]
    simp only [Bool.true_and, List.all_eq_true, Bool.or_eq_true, hf, true_and]
    constructor
    · intro hall m hm hh
      rcases hall m hm with h1 | h1
      · exact h1
      · rw [hh] at h1
        cases h1
    · intro hall m hm
      cases hh : hiddenFile m.filename
      · exact Or.inl (hall m hm hh)
      · exact Or.inr rfl
  · simp only [hf, Bool.not_false, if_true, Option.some.injEq, Prod.mk.injEq] at h
    simp only [hf, false_and, iff_false]
    rw [← h.1]
    simp

/-- One call of the move loop over `SimFS` leaves what exists below the final
directory as it is. -/
theorem move_step_frame (F : Faults) (fs : SimFS) (inter dest f dst q : String)
    (hf : PATH_SEPARATOR ∉ f.data)
    (hsep : SimFS.atOrUnder dest inter = false)
    (hfree : fs.occupied dst = false) (hdst : SimFS.under dest dst = true)
    (hq : SimFS.under dest q = true) (hpres : fs.present q) :
    (SimFS.MoveFile F fs (formatPath inter f) dst).2.content q = fs.content q ∧
    (q ∈ fs.dirs → q ∈ (SimFS.MoveFile F fs (formatPath inter f) dst).2.dirs) ∧
    (SimFS.MoveFile F fs (formatPath inter f) dst).2.present q := by
  have hdq : SimFS.atOrUnder dst q = false :=
    SimFS.not_atOrUnder_of_free fs dst q hfree (SimFS.mem_paths_of_present fs q hpres)
  have h12 : (SimFS.MoveFile F fs (formatPath inter f) dst).2.content q = fs.content q ∧
      (q ∈ fs.dirs → q ∈ (SimFS.MoveFile F fs (formatPath inter f) dst).2.dirs) := by
    rcases SimFS.MoveFile_cases F fs (formatPath inter f) dst with
      ⟨_, h2⟩ | ⟨_, _, _, h2⟩ | ⟨_, _, hu, _, h2⟩
    · rw [h2]
      exact ⟨rfl, id⟩
    · rw [h2]
      exact ⟨rfl, id⟩
    · rw [h2]
      have hsq := source_misses_final inter dest f dst q hf hsep hdst hu hq
      exact ⟨SimFS.relocate_content_frame fs _ _ q hsq hdq,
        SimFS.relocate_dirs_frame fs _ _ q hsq hdq⟩
  refine ⟨h12.1, h12.2, ?_⟩
  rcases hpres with h | h
  · left
    rw [h12.1]
    exact h
  · right
    exact h12.2 h

/-- A successful call of the move loop over `SimFS` onto a free destination
leaves something at the destination. -/
theorem move_step_arrives (F : Faults) (fs : SimFS) (src dst : String)
    (hfree : fs.occupied dst = false)
    (hok : (SimFS.MoveFile F fs src dst).1 = true) :
    (SimFS.MoveFile F fs src dst).2.present dst := by
  rcases SimFS.MoveFile_cases F fs src dst with
    ⟨h1, _⟩ | ⟨_, heq, hex, _⟩ | ⟨_, _, _, hex, h2⟩
  · rw [h1] at hok
    cases hok
  · exfalso
    have := SimFS.occupied_of_present fs src (SimFS.present_of_exists fs src hex)
    rw [heq, hfree] at this
    cases this
  · rw [h2]
    rcases hex with hex | hex
    · left
      have := SimFS.relocate_content_landing fs src dst src hfree (SimFS.atOrUnder_self src)
      rw [SimFS.reroot_self] at this
      rw [this]
      exact hex
    · right
      have := SimFS.relocate_dirs_landing fs src dst src hfree
        (by simpa [SimFS.DirectoryExists] using hex)
      rw [SimFS.reroot_self] at this
      exact this

/-- Frame of the move loop over `SimFS`: what exists below the final directory
keeps its content and its place, and no call targets it. -/
theorem moveLoop_frame (F : Faults) (U : SimFS → String → String → String)
    (V : String → String) (obf : String → Bool) (excl : List String)
    (hU : SimFS.UniqueNameContract U) (job : Job)
    (hsep : SimFS.atOrUnder job.destDir job.interDir = false)
    (q : String) (hq : SimFS.under job.destDir q = true) :
    ∀ (entries : List String) (fs : SimFS) (ok : Bool),
      (∀ f ∈ entries, PATH_SEPARATOR ∉ f.data) →
      fs.present q →
      (moveLoop (simPrimitives F U V obf excl) job entries fs ok).world.content q
          = fs.content q ∧
      (q ∈ fs.dirs →
        q ∈ (moveLoop (simPrimitives F U V obf excl) job entries fs ok).world.dirs) ∧
      (moveLoop (simPrimitives F U V obf excl) job entries fs ok).world.present q ∧
      ∀ m ∈ (moveLoop (simPrimitives F U V obf excl) job entries fs ok).moves,
          m.dstFile ≠ q := by
  intro entries
  induction entries with
  | nil =>
    intro fs ok _ hpres
    rw [moveLoop_nil]
    exact ⟨rfl, id, hpres, by simp⟩
  | cons e rest ih =>
    intro fs ok hnames hpres
    have hc := hU fs job.destDir (V e)
    have hstep := move_step_frame F fs job.interDir job.destDir e (U fs job.destDir (V e)) q
      (hnames e (List.mem_cons_self _ _)) hsep hc.1 hc.2 hq hpres
    have hdne : U fs job.destDir (V e) ≠ q := by
      intro h
      have := SimFS.occupied_of_present fs q hpres
      rw [← h, hc.1] at this
      cases this
    have hih := ih (SimFS.MoveFile F fs (formatPath job.interDir e) (U fs job.destDir (V e))).2
      (if !(SimFS.MoveFile F fs (formatPath job.interDir e) (U fs job.destDir (V e))).1
          && !hiddenFile e then false else ok)
      (fun f hf => hnames f (List.mem_cons_of_mem _ hf)) hstep.2.2
    rw [moveLoop_cons]
    simp only [simPrimitives] at hih ⊢
    refine ⟨by rw [hih.1, hstep.1], fun h => hih.2.1 (hstep.2.1 h), hih.2.2.1, ?_⟩
    intro m hm
    rcases List.mem_cons.mp hm with hm | hm
    · rw [hm]
      exact hdne
    · exact hih.2.2.2 m hm

/-- Where the move loop over `SimFS` puts what it moves: the destinations of
the successful calls are pairwise distinct, lie in the final directory, and
something is found at each of them when the loop ends. -/
theorem moveLoop_targets (F : Faults) (U : SimFS → String → String → String)
    (V : String → String) (obf : String → Bool) (excl : List String)
    (hU : SimFS.UniqueNameContract U) (job : Job)
    (hsep : SimFS.atOrUnder job.destDir job.interDir = false) :
    ∀ (entries : List String) (fs : SimFS) (ok : Bool),
      (∀ f ∈ entries, PATH_SEPARATOR ∉ f.data) →
      (((moveLoop (simPrimitives F U V obf excl) job entries fs ok).moves.filter
          (fun m => m.ok)).map MoveCall.dstFile).Nodup ∧
      ∀ m ∈ (moveLoop (simPrimitives F U V obf excl) job entries fs ok).moves,
        m.ok = true →
          SimFS.under job.destDir m.dstFile = true ∧
          (moveLoop (simPrimitives F U V obf excl) job entries fs ok).world.present
            m.dstFile := by
  intro entries
  induction entries with
  | nil =>
    intro fs ok _
    simp [moveLoop_nil]
  | cons e rest ih =>
    intro fs ok hnames
    have hc := hU fs job.destDir (V e)
    have hrest : ∀ f ∈ rest, PATH_SEPARATOR ∉ f.data :=
      fun f hf => hnames f (List.mem_cons_of_mem _ hf)
    have hih := ih (SimFS.MoveFile F fs (formatPath job.interDir e) (U fs job.destDir (V e))).2
      (if !(SimFS.MoveFile F fs (formatPath job.interDir e) (U fs job.destDir (V e))).1
          && !hiddenFile e then false else ok) hrest
    have hframe : (SimFS.MoveFile F fs (formatPath job.interDir e)
          (U fs job.destDir (V e))).1 = true →
        (moveLoop (simPrimitives F U V obf excl) job rest
          (SimFS.MoveFile F fs (formatPath job.interDir e) (U fs job.destDir (V e))).2
          (if !(SimFS.MoveFile F fs (formatPath job.interDir e) (U fs job.destDir (V e))).1
            && !hiddenFile e then false else ok)).world.present (U fs job.destDir (V e)) ∧
        ∀ m ∈ (moveLoop (simPrimitives F U V obf excl) job rest
          (SimFS.MoveFile F fs (formatPath job.interDir e) (U fs job.destDir (V e))).2
          (if !(SimFS.MoveFile F fs (formatPath job.interDir e) (U fs job.destDir (V e))).1
            && !hiddenFile e then false else ok)).moves,
          m.dstFile ≠ U fs job.destDir (V e) := by
      intro hok
      have harr := move_step_arrives F fs _ _ hc.1 hok
      have := moveLoop_frame F U V obf excl hU job hsep (U fs job.destDir (V e)) hc.2 rest
        (SimFS.MoveFile F fs (formatPath job.interDir e) (U fs job.destDir (V e))).2
        (if !(SimFS.MoveFile F fs (formatPath job.interDir e) (U fs job.destDir (V e))).1
            && !hiddenFile e then false else ok) hrest harr
      exact ⟨this.2.2.1, this.2.2.2⟩
    rw [moveLoop_cons]
    simp only [simPrimitives] at hih hframe ⊢
    refine ⟨?_, ?_⟩
    · by_cases hok : (SimFS.MoveFile F fs (formatPath job.interDir e)
          (U fs job.destDir (V e))).1 = true
      · rw [List.filter_cons_of_pos (by simpa using hok)]
        simp only [List.map_cons, List.nodup_cons]
        refine ⟨?_, hih.1⟩
        intro hmem
        obtain ⟨m, hm, hmd⟩ := List.mem_map.mp hmem
        exact (hframe hok).2 m (List.mem_of_mem_filter hm) hmd
      · rw [List.filter_cons_of_neg (by simpa using hok)]
        exact hih.1
    · intro m hm hmok
      rcases List.mem_cons.mp hm with hm | hm
      · rw [hm] at hmok ⊢
        exact ⟨hc.2, (hframe hmok).1⟩
      · exact hih.2 m hm hmok

/-- What the move loop over `SimFS` does with a file at or below the source
path of a non-hidden entry, when it ends with the flag set: the content of
the file is then found below the final directory. -/
theorem moveLoop_carries (F : Faults) (U : SimFS → String → String → String)
    (V : String → String) (obf : String → Bool) (excl : List String)
    (hU : SimFS.UniqueNameContract U) (job : Job)
    (hsep : SimFS.atOrUnder job.destDir job.interDir = false) (p : String) (c : Nat) :
    ∀ (entries : List String) (fs : SimFS) (ok : Bool),
      (∀ f ∈ entries, PATH_SEPARATOR ∉ f.data) →
      (moveLoop (simPrimitives F U V obf excl) job entries fs ok).ok = true →
      ∀ f ∈ entries, hiddenFile f = false →
        SimFS.atOrUnder (formatPath job.interDir f) p = true →
        fs.content p = some c →
        ∃ q, SimFS.under job.destDir q = true ∧
          (moveLoop (simPrimitives F U V obf excl) job entries fs ok).world.content q
            = some c := by
  intro entries
  induction entries with
  | nil => intro fs ok _ _ f hf; simp at hf
  | cons e rest ih =>
    intro fs ok hnames hfin f hf hvis hp hcont
    have hc := hU fs job.destDir (V e)
    have hrest : ∀ f ∈ rest, PATH_SEPARATOR ∉ f.data :=
      fun f hf => hnames f (List.mem_cons_of_mem _ hf)
    have hppaths := SimFS.mem_paths_of_content fs p c hcont
    have hdp : SimFS.atOrUnder (U fs job.destDir (V e)) p = false :=
      SimFS.not_atOrUnder_of_free fs _ p hc.1 hppaths
    rw [moveLoop_cons] at hfin ⊢
    have hih := ih (SimFS.MoveFile F fs (formatPath job.interDir e) (U fs job.destDir (V e))).2
      (if !(SimFS.MoveFile F fs (formatPath job.interDir e) (U fs job.destDir (V e))).1
          && !hiddenFile e then false else ok) hrest
    have hv := (moveLoop_verdict (simPrimitives F U V obf excl) job rest
      (SimFS.MoveFile F fs (formatPath job.interDir e) (U fs job.destDir (V e))).2
      (if !(SimFS.MoveFile F fs (formatPath job.interDir e) (U fs job.destDir (V e))).1
          && !hiddenFile e then false else ok)).1
    simp only [simPrimitives] at hfin hih hv ⊢
    rw [hfin] at hv
    have hflag : (if !(SimFS.MoveFile F fs (formatPath job.interDir e)
        (U fs job.destDir (V e))).1 && !hiddenFile e then false else ok) = true := by
      have := hv.symm
      rw [Bool.and_eq_true] at this
      exact this.1
    -- the entry itself cannot be the one whose call failed
    have hself : f = e → (SimFS.MoveFile F fs (formatPath job.interDir e)
        (U fs job.destDir (V e))).1 = true := by
      intro hfe
      cases hm : (SimFS.MoveFile F fs (formatPath job.interDir e) (U fs job.destDir (V e))).1
      · rw [hm, ← hfe, hvis] at hflag
        simp at hflag
      · rfl
    have hmem : f ≠ e → f ∈ rest := by
      intro hne
      rcases List.mem_cons.mp hf with h | h
      · exact absurd h hne
      · exact h
    rcases SimFS.MoveFile_cases F fs (formatPath job.interDir e) (U fs job.destDir (V e)) with
      ⟨h1, h2⟩ | ⟨_, heq, hex, _⟩ | ⟨_, _, _, _, h2⟩
    · have hne : f ≠ e := by
        intro hfe
        rw [hself hfe] at h1
        cases h1
      exact hih hfin f (hmem hne) hvis hp (by rw [h2]; exact hcont)
    · exfalso
      have := SimFS.occupied_of_present fs _ (SimFS.present_of_exists fs _ hex)
      rw [heq, hc.1] at this
      cases this
    · by_cases hat : SimFS.atOrUnder (formatPath job.interDir e) p = true
      · have hland := SimFS.relocate_content_landing fs (formatPath job.interDir e)
          (U fs job.destDir (V e)) p hc.1 hat
        have hunder : SimFS.under job.destDir
            (SimFS.reroot (formatPath job.interDir e) (U fs job.destDir (V e)) p) = true :=
          SimFS.under_trans _ _ _ hc.2 (SimFS.reroot_atOrUnder _ _ p hat)
        have hnow : (SimFS.MoveFile F fs (formatPath job.interDir e)
            (U fs job.destDir (V e))).2.content
            (SimFS.reroot (formatPath job.interDir e) (U fs job.destDir (V e)) p) = some c := by
          rw [h2, hland]
          exact hcont
        have hfr := moveLoop_frame F U V obf excl hU job hsep _ hunder rest
          (SimFS.MoveFile F fs (formatPath job.interDir e) (U fs job.destDir (V e))).2
          (if !(SimFS.MoveFile F fs (formatPath job.interDir e) (U fs job.destDir (V e))).1
              && !hiddenFile e then false else ok) hrest
          (Or.inl (by rw [hnow]; rfl))
        simp only [simPrimitives] at hfr
        exact ⟨_, hunder, by rw [hfr.1, hnow]⟩
      · have hne : f ≠ e := by
          intro hfe
          rw [hfe] at hp
          exact hat hp
        have hkeep : (SimFS.MoveFile F fs (formatPath job.interDir e)
            (U fs job.destDir (V e))).2.content p = some c := by
          rw [h2, SimFS.relocate_content_frame fs _ _ p (by simpa using hat) hdp]
          exact hcont
        exact hih hfin f (hmem hne) hvis hp hkeep

theorem sanitizedName_some (destDir filename uniqueName dstFile : String)
    (h : sanitizedName destDir filename uniqueName = some dstFile) :
    ∃ ext : String, dstFile = uniqueName ++ ext := by
  unfold sanitizedName at h
  simp only at h
  cases hs : substr (joinPath destDir filename) (find_last_of (joinPath destDir filename) ".") with
  | none => simp [hs] at h
  | some ext =>
    simp only [hs, Option.some.injEq] at h
    exact ⟨ext, h.symm⟩

/-- One rename of the renaming pass over `SimFS`, its destination lying below
the final directory: no directory appears outside the final directory, and
when nothing exists at the destination, a content found below the final
directory is still found there. -/
theorem rename_step (F : Faults) (fs : SimFS) (dest src dst : String)
    (hdst : SimFS.under dest dst = true) :
    (∀ d, SimFS.under dest d = false → d ∈ (SimFS.MoveFile F fs src dst).2.dirs →
      d ∈ fs.dirs) ∧
    (fs.occupied dst = false → ∀ c,
      (∃ q, SimFS.under dest q = true ∧ fs.content q = some c) →
      ∃ q, SimFS.under dest q = true ∧ (SimFS.MoveFile F fs src dst).2.content q = some c) := by
  rcases SimFS.MoveFile_cases F fs src dst with
    ⟨_, h2⟩ | ⟨_, _, _, h2⟩ | ⟨_, _, _, _, h2⟩
  · rw [h2]
    exact ⟨fun _ _ h => h, fun _ _ h => h⟩
  · rw [h2]
    exact ⟨fun _ _ h => h, fun _ _ h => h⟩
  · rw [h2]
    constructor
    · intro d hd hmem
      obtain ⟨d0, hd0, heq⟩ := SimFS.relocate_dirs_origin fs src dst d hmem
      by_cases hat : SimFS.atOrUnder src d0 = true
      · exfalso
        have := SimFS.under_trans dest dst d hdst (by rw [heq]; exact SimFS.reroot_atOrUnder _ _ _ hat)
        rw [hd] at this
        cases this
      · rw [heq, SimFS.reroot_of_not src dst d0 (by simpa using hat)]
        exact hd0
    · intro hfree c hq
      obtain ⟨q, hq1, hq2⟩ := hq
      by_cases hat : SimFS.atOrUnder src q = true
      · refine ⟨SimFS.reroot src dst q, ?_, ?_⟩
        · exact SimFS.under_trans dest dst _ hdst (SimFS.reroot_atOrUnder _ _ _ hat)
        · rw [SimFS.relocate_content_landing fs src dst q hfree hat]
          exact hq2
      · refine ⟨q, hq1, ?_⟩
        have hdq := SimFS.not_atOrUnder_of_free fs dst q hfree
          (SimFS.mem_paths_of_content fs q c hq2)
        rw [SimFS.relocate_content_frame fs src dst q (by simpa using hat) hdq]
        exact hq2

/-- The renaming pass over `SimFS`: no directory appears outside the final
directory, and when every rename goes to a free destination, a content found
below the final directory before the pass is found there after it. -/
theorem sanitizeLoop_effects (F : Faults) (U : SimFS → String → String → String)
    (V : String → String) (obf : String → Bool) (excl : List String)
    (hU : SimFS.UniqueNameContract U) (job : Job) :
    ∀ (entries : List String) (fs : SimFS) (l : LoopResult SimFS),
      sanitizeLoop (simPrimitives F U V obf excl) job entries fs = some l →
      (∀ d, SimFS.under job.destDir d = false → d ∈ l.world.dirs → d ∈ fs.dirs) ∧
      (renamesOntoFree F U obf excl job entries fs = true → ∀ c,
        (∃ q, SimFS.under job.destDir q = true ∧ fs.content q = some c) →
        ∃ q, SimFS.under job.destDir q = true ∧ l.world.content q = some c) := by
  intro entries
  induction entries with
  | nil =>
    intro fs l h
    simp only [sanitizeLoop, Option.some.injEq] at h
    rw [← h]
    exact ⟨fun _ _ h => h, fun _ _ h => h⟩
  | cons f rest ih =>
    intro fs l h
    rw [sanitizeLoop] at h
    by_cases hobf : obf f = true
    · have hobf' : (simPrimitives F U V obf excl).IsStronglyObfuscated f = true := hobf
      simp only [hobf', Bool.not_true, Bool.false_eq_true, if_false] at h
      cases hname : sanitizedName job.destDir f (U fs job.destDir job.name) with
      | none =>
        have hname' : sanitizedName job.destDir f
            ((simPrimitives F U V obf excl).MakeUniqueFilename fs job.destDir job.name)
              = none := hname
        simp [hname'] at h
      | some dstFile =>
        have hname' : sanitizedName job.destDir f
            ((simPrimitives F U V obf excl).MakeUniqueFilename fs job.destDir job.name)
              = some dstFile := hname
        simp only [hname'] at h
        by_cases hex : excluded excl dstFile = true
        · have hex' : excluded (simPrimitives F U V obf excl).EXCLUDED_EXTENSIONS dstFile
              = true := hex
          simp only [hex', if_true] at h
          have := ih fs l h
          refine ⟨this.1, ?_⟩
          intro hsafe
          rw [renamesOntoFree] at hsafe
          simp only [hobf, Bool.not_true, Bool.false_eq_true, if_false, hname, hex,
            if_true] at hsafe
          exact this.2 hsafe
        · have hex' : ¬ excluded (simPrimitives F U V obf excl).EXCLUDED_EXTENSIONS dstFile
              = true := hex
          simp only [hex', Bool.false_eq_true, if_false] at h
          cases hrest : sanitizeLoop (simPrimitives F U V obf excl) job rest
              (SimFS.MoveFile F fs (joinPath job.destDir f) dstFile).2 with
          | none =>
            have hrest' : sanitizeLoop (simPrimitives F U V obf excl) job rest
              ((simPrimitives F U V obf excl).MoveFile fs (joinPath job.destDir f) dstFile).2
                = none := hrest
            simp [hrest'] at h
          | some l2 =>
            have hrest' : sanitizeLoop (simPrimitives F U V obf excl) job rest
              ((simPrimitives F U V obf excl).MoveFile fs (joinPath job.destDir f) dstFile).2
                = some l2 := hrest
            simp only [hrest', Option.some.injEq] at h
            have hih := ih _ l2 hrest
            obtain ⟨ext, hext⟩ := sanitizedName_some _ _ _ _ hname
            have hdst : SimFS.under job.destDir dstFile = true := by
              rw [hext]
              exact SimFS.under_append _ _ _ (hU fs job.destDir job.name).2
            have hstep := rename_step F fs job.destDir (joinPath job.destDir f) dstFile hdst
            rw [← h]
            simp only
            refine ⟨fun d hd hmem => hstep.1 d hd (hih.1 d hd hmem), ?_⟩
            intro hsafe c hq
            rw [renamesOntoFree] at hsafe
            simp only [hobf, Bool.not_true, Bool.false_eq_true, if_false, hname, hex,
              Bool.and_eq_true, Bool.not_eq_true'] at hsafe
            exact hih.2 hsafe.2 c (hstep.2 hsafe.1 c hq)
    · have hobf' : ¬ (simPrimitives F U V obf excl).IsStronglyObfuscated f = true := hobf
      simp only [hobf', Bool.not_false, if_true] at h
      have := ih fs l h
      refine ⟨this.1, ?_⟩
      intro hsafe
      rw [renamesOntoFree] at hsafe
      simp only [hobf, Bool.not_false, if_true] at hsafe
      exact this.2 hsafe

/-- C1 (failing input): the intermediate directory holds one obfuscated entry
without extension and the path of the final directory has no `.`.
`ForceDirectories` succeeds and the only `MoveFile` call succeeds, yet
`MoveFiles` returns nothing: `substr(npos)` throws in `SanitizeFilenames`. -/
theorem MoveFiles_throws_after_successful_moves :
    ((demoPrimitives noFaults).ForceDirectories fsDotless dotlessJob.destDir).1 = true ∧
    (moveLoop (demoPrimitives noFaults) dotlessJob
      ((demoPrimitives noFaults).DirBrowser
        ((demoPrimitives noFaults).ForceDirectories fsDotless dotlessJob.destDir).2
        dotlessJob.interDir)
      ((demoPrimitives noFaults).ForceDirectories fsDotless dotlessJob.destDir).2 true).moves
      = [⟨"b082fa0beaa644d3aa01045d5b8d0b36", "/inter/b082fa0beaa644d3aa01045d5b8d0b36",
          "/final/Job/b082fa0beaa644d3aa01045d5b8d0b36", true⟩] ∧
    find_last_of "/final/Job/b082fa0beaa644d3aa01045d5b8d0b36" "." = npos ∧
    MoveFiles (demoPrimitives noFaults) dotlessJob fsDotless = none := by
  decide

/-- C5 (counterexample): six runs in which `MoveFiles` returns `true`, each
from a non-empty intermediate directory.
(1) `/inter` holds `a.mkv` and the deletion of `/inter` fails: `/inter` still
exists afterwards.
(2) `/inter` holds two obfuscated entries with the extension `.mkv`: the
renaming pass renames both to `/final/Job.mkv`, and the content `1` is found
nowhere afterwards.
(3) The intermediate directory is the final directory `/final`, holding
`a.mkv`: the entry is renamed, the directory is deleted with it, and the
content `1` is found nowhere.
(4) The final directory `/inter/.final` lies inside the intermediate directory
`/inter`, which holds `a.mkv`: the file is moved into `.final`, the move of the
hidden `.final` into itself fails without effect on the verdict, `/inter` is
deleted with all it holds, and the content `1` is found nowhere.
(5) The path of the intermediate directory has 1024 characters; the source
path formatted for its entry `f.mkv` is cut after 1023 characters to the path
of the file `aaaaaaaaaaaaaaaaaa` next to the directory: that file, with the
content `7`, is moved to `/final/f.mkv`, and the content `1` of `f.mkv` is
deleted with the intermediate directory.
(6) The intermediate directory `/final/Job.mkv` lies inside the final
directory, which also holds a directory with an obfuscated name: the deletion
of the intermediate directory succeeds, and the renaming pass then renames the
obfuscated directory to `/final/Job.mkv`, so a directory exists at the path of
the intermediate directory afterwards. -/
theorem relocate_true_but_directory_or_file_not_as_claimed :
    (SimFS.DirBrowser fsOneFile demoJob.interDir = ["a.mkv"] ∧
      MoveFiles (demoPrimitives deleteFails) demoJob fsOneFile
        = some (true, ⟨[("/final/a.mkv", 1)], ["/final", "/inter"]⟩) ∧
      SimFS.DirectoryExists ⟨[("/final/a.mkv", 1)], ["/final", "/inter"]⟩ demoJob.interDir
        = true) ∧
    (fsTwoObfuscatedInter.content "/inter/b082fa0beaa644d3aa01045d5b8d0b36.mkv" = some 1 ∧
      hiddenFile "b082fa0beaa644d3aa01045d5b8d0b36.mkv" = false ∧
      MoveFiles (demoPrimitives noFaults) demoJob fsTwoObfuscatedInter
        = some (true, ⟨[("/final/Job.mkv", 2)], ["/final"]⟩)) ∧
    (fsFinalOnly.content "/final/a.mkv" = some 1 ∧
      hiddenFile "a.mkv" = false ∧
      MoveFiles (demoPrimitives noFaults) sameDirJob fsFinalOnly
        = some (true, ⟨[], []⟩)) ∧
    (fsOneFile.content "/inter/a.mkv" = some 1 ∧
      MoveFiles (demoPrimitives noFaults) insideJob fsOneFile
        = some (true, ⟨[], []⟩)) ∧
    (SimFS.DirBrowser fsLongInter longInterJob.interDir = ["f.mkv"] ∧
      fsLongInter.content (joinPath longInterJob.interDir "f.mkv") = some 1 ∧
      hiddenFile "f.mkv" = false ∧
      formatPath longInterJob.interDir "f.mkv" = joinPath longDir "aaaaaaaaaaaaaaaaaa" ∧
      MoveFiles (demoPrimitives noFaults) longInterJob fsLongInter
        = some (true, ⟨[("/final/f.mkv", 7)], ["/final"]⟩)) ∧
    (SimFS.DirBrowser fsInsideFinal insideFinalJob.interDir = ["a.mkv"] ∧
      (SimFS.DeleteDirectoryWithContent noFaults
        (moveLoop (demoPrimitives noFaults) insideFinalJob
          (SimFS.DirBrowser fsInsideFinal insideFinalJob.interDir)
          (SimFS.ForceDirectories noFaults fsInsideFinal insideFinalJob.destDir).2 true).world
        insideFinalJob.interDir).1 = true ∧
      MoveFiles (demoPrimitives noFaults) insideFinalJob fsInsideFinal
        = some (true, ⟨[("/final/a.mkv", 1)], ["/final", "/final/Job.mkv"]⟩) ∧
      SimFS.DirectoryExists ⟨[("/final/a.mkv", 1)], ["/final", "/final/Job.mkv"]⟩
        insideFinalJob.interDir = true) := by
  refine ⟨by decide, by decide, by decide, by decide, by decide, by decide⟩

/-- C5 (as amended): over `SimFS`, let `UniqueName` return free names in the
directory asked for, let neither of the two directories be the other or lie
inside it, let the paths of the entries of the intermediate directory fit the
1023 characters of a `BString<1024>`, and let every rename of the renaming
pass go to a destination at which nothing exists.  Whenever `MoveFiles`
returns `true`, (a) if the deletion of the intermediate directory succeeded,
that directory does not exist in the final state, and (b) the content of
every file that was in the intermediate directory, as a non-hidden entry or
below one, is found below the final directory in the final state. -/
theorem relocate_true_moved_every_visible_entry (F : Faults)
    (U : SimFS → String → String → String) (V : String → String) (obf : String → Bool)
    (excl : List String) (hU : SimFS.UniqueNameContract U) (job : Job) (fs fs2 : SimFS)
    (hsep1 : SimFS.atOrUnder job.destDir job.interDir = false)
    (hsep2 : SimFS.atOrUnder job.interDir job.destDir = false)
    (hfit : ∀ f ∈ SimFS.DirBrowser fs job.interDir,
      (joinPath job.interDir f).data.length ≤ 1023)
    (hfree : renamesOntoFree F U obf excl job
      (SimFS.DirBrowser
        (SimFS.DeleteDirectoryWithContent F
          (moveLoop (simPrimitives F U V obf excl) job (SimFS.DirBrowser fs job.interDir)
            (SimFS.ForceDirectories F fs job.destDir).2 true).world job.interDir).2
        job.destDir)
      (SimFS.DeleteDirectoryWithContent F
        (moveLoop (simPrimitives F U V obf excl) job (SimFS.DirBrowser fs job.interDir)
          (SimFS.ForceDirectories F fs job.destDir).2 true).world job.interDir).2 = true)
    (h : MoveFiles (simPrimitives F U V obf excl) job fs = some (true, fs2)) :
    ((SimFS.DeleteDirectoryWithContent F
        (moveLoop (simPrimitives F U V obf excl) job (SimFS.DirBrowser fs job.interDir)
          (SimFS.ForceDirectories F fs job.destDir).2 true).world job.interDir).1 = true →
      fs2.DirectoryExists job.interDir = false) ∧
    (∀ f ∈ SimFS.DirBrowser fs job.interDir, hiddenFile f = false →
      ∀ (p : String) (c : Nat), SimFS.atOrUnder (joinPath job.interDir f) p = true →
        fs.content p = some c →
        ∃ q, SimFS.under job.destDir q = true ∧ fs2.content q = some c) := by
  have hunder : SimFS.under job.interDir job.destDir = false :=
    ((SimFS.atOrUnder_false_iff _ _).mp hsep2).2
  have hlist : SimFS.DirBrowser (SimFS.ForceDirectories F fs job.destDir).2 job.interDir
      = SimFS.DirBrowser fs job.interDir :=
    SimFS.DirBrowser_ForceDirectories F fs job.interDir job.destDir hunder
  obtain ⟨_, hok, s, hs, hw⟩ := MoveFiles_true _ job fs fs2 h
  change (moveLoop (simPrimitives F U V obf excl) job
    (SimFS.DirBrowser (SimFS.ForceDirectories F fs job.destDir).2 job.interDir)
    (SimFS.ForceDirectories F fs job.destDir).2 true).ok = true at hok
  change sanitizeLoop (simPrimitives F U V obf excl) job
    (SimFS.DirBrowser
      (SimFS.DeleteDirectoryWithContent F
        (moveLoop (simPrimitives F U V obf excl) job
          (SimFS.DirBrowser (SimFS.ForceDirectories F fs job.destDir).2 job.interDir)
          (SimFS.ForceDirectories F fs job.destDir).2 true).world job.interDir).2
      job.destDir)
    (SimFS.DeleteDirectoryWithContent F
      (moveLoop (simPrimitives F U V obf excl) job
        (SimFS.DirBrowser (SimFS.ForceDirectories F fs job.destDir).2 job.interDir)
        (SimFS.ForceDirectories F fs job.destDir).2 true).world job.interDir).2 = some s at hs
  rw [hlist] at hok hs
  have heff := sanitizeLoop_effects F U V obf excl hU job _ _ s hs
  have hnames : ∀ f ∈ SimFS.DirBrowser fs job.interDir, PATH_SEPARATOR ∉ f.data :=
    fun f hf => SimFS.DirBrowser_sep fs _ f hf
  constructor
  · intro hdel
    have hgone := SimFS.DeleteDirectoryWithContent_true F _ _ hdel
    rw [← hw]
    unfold SimFS.DirectoryExists
    have hnot : job.interDir ∉ s.world.dirs := fun hmem =>
      hgone (heff.1 job.interDir ((SimFS.atOrUnder_false_iff _ _).mp hsep1).2 hmem)
    simpa using hnot
  · intro f hf hvis p c hp hcont
    rw [← formatPath_of_fits job.interDir f (hfit f hf)] at hp
    obtain ⟨q, hq1, hq2⟩ := moveLoop_carries F U V obf excl hU job hsep1 p c
      (SimFS.DirBrowser fs job.interDir) (SimFS.ForceDirectories F fs job.destDir).2 true
      hnames hok f hf hvis hp (by rw [SimFS.ForceDirectories_content]; exact hcont)
    have hq3 := final_misses_intermediate job.interDir job.destDir q hsep1 hsep2 hq1
    have hq4 : (SimFS.DeleteDirectoryWithContent F
        (moveLoop (simPrimitives F U V obf excl) job (SimFS.DirBrowser fs job.interDir)
          (SimFS.ForceDirectories F fs job.destDir).2 true).world job.interDir).2.content q
        = some c := by
      rw [SimFS.DeleteDirectoryWithContent_content F _ _ q hq3]
      exact hq2
    rw [← hw]
    exact heff.2 hfree c ⟨q, hq1, hq4⟩

/-- C5 (witness): `/inter` holds `a.mkv`, `.hidden.tmp` and the directory `sub`
with `b.txt`; nothing fails. -/
theorem relocate_true_moved_every_visible_entry_witness :
    (SimFS.atOrUnder demoJob.destDir demoJob.interDir = false ∧
      SimFS.atOrUnder demoJob.interDir demoJob.destDir = false ∧
      (∀ f ∈ SimFS.DirBrowser fsWithSubdir demoJob.interDir,
        (joinPath demoJob.interDir f).data.length ≤ 1023) ∧
      MoveFiles (demoPrimitives noFaults) demoJob fsWithSubdir
        = some (true, ⟨[("/final/a.mkv", 1), ("/final/.hidden.tmp", 2),
            ("/final/sub/b.txt", 3)], ["/final", "/final/sub"]⟩)) ∧
    (((SimFS.DeleteDirectoryWithContent noFaults
        (moveLoop (demoPrimitives noFaults) demoJob
          (SimFS.DirBrowser fsWithSubdir demoJob.interDir)
          (SimFS.ForceDirectories noFaults fsWithSubdir demoJob.destDir).2 true).world
        demoJob.interDir).1 = true →
      SimFS.DirectoryExists ⟨[("/final/a.mkv", 1), ("/final/.hidden.tmp", 2),
            ("/final/sub/b.txt", 3)], ["/final", "/final/sub"]⟩ demoJob.interDir = false) ∧
    (∀ f ∈ SimFS.DirBrowser fsWithSubdir demoJob.interDir, hiddenFile f = false →
      ∀ (p : String) (c : Nat), SimFS.atOrUnder (joinPath demoJob.interDir f) p = true →
        fsWithSubdir.content p = some c →
        ∃ q, SimFS.under demoJob.destDir q = true ∧
          SimFS.content ⟨[("/final/a.mkv", 1), ("/final/.hidden.tmp", 2),
            ("/final/sub/b.txt", 3)], ["/final", "/final/sub"]⟩ q = some c)) :=
  ⟨by decide,
    relocate_true_moved_every_visible_entry noFaults SimFS.MakeUniqueFilename dropIllegal
      hexName [".par2"] SimFS.MakeUniqueFilename_contract demoJob fsWithSubdir
      ⟨[("/final/a.mkv", 1), ("/final/.hidden.tmp", 2), ("/final/sub/b.txt", 3)],
        ["/final", "/final/sub"]⟩
      (by decide) (by decide) (by decide) (by decide) (by decide)⟩

theorem startsWith_append (t r : List Char) : startsWith (t ++ r) t = true := by
  induction t with
  | nil => cases r <;> rfl
  | cons a t ih => simp [startsWith, ih]

theorem rfindAux_range (t : List Char) :
    ∀ (s : List Char) (i found : Nat),
      rfindAux t s i found = found ∨
        (i ≤ rfindAux t s i found ∧ rfindAux t s i found ≤ i + s.length) := by
  intro s
  induction s with
  | nil =>
    intro i found
    simp only [rfindAux]
    by_cases h : startsWith [] t = true <;> simp [h]
  | cons c cs ih =>
    intro i found
    simp only [rfindAux, List.length_cons]
    by_cases h : startsWith (c :: cs) t = true
    · simp only [h, if_true]
      rcases ih (i + 1) i with h2 | h2
      · right
        rw [h2]
        omega
      · right
        omega
    · simp only [h, Bool.false_eq_true, if_false]
      rcases ih (i + 1) found with h2 | h2
      · exact Or.inl h2
      · right
        omega

theorem rfindAux_occurrence (t : List Char) :
    ∀ (s : List Char) (i found : Nat), (∃ a b, s = a ++ t ++ b) →
      i ≤ rfindAux t s i found ∧ rfindAux t s i found ≤ i + s.length := by
  intro s
  induction s with
  | nil =>
    intro i found h
    obtain ⟨a, b, hab⟩ := h
    have ht : t = [] := by
      have := congrArg List.length hab
      simp at this
      exact List.length_eq_zero.mp (by omega)
    subst ht
    simp [rfindAux, startsWith]
  | cons c cs ih =>
    intro i found h
    simp only [rfindAux, List.length_cons]
    by_cases hst : startsWith (c :: cs) t = true
    · simp only [hst, if_true]
      rcases rfindAux_range t cs (i + 1) i with h2 | h2
      · rw [h2]
        omega
      · omega
    · simp only [hst, Bool.false_eq_true, if_false]
      obtain ⟨a, b, hab⟩ := h
      cases a with
      | nil =>
        exfalso
        apply hst
        rw [hab]
        simpa using startsWith_append t b
      | cons x a =>
        simp only [List.cons_append, List.cons.injEq] at hab
        have := ih (i + 1) found ⟨a, b, hab.2⟩
        omega

/-- The exclusion test of `SanitizeFilenames` holds as soon as an extension of
the list occurs anywhere in the destination, be it inside the directory
path. -/
theorem excluded_of_occurrence (excl : List String) (ext dstFile : String)
    (a b : List Char) (hmem : ext ∈ excl) (hocc : dstFile.data = a ++ ext.data ++ b)
    (hlen : dstFile.data.length < npos) : excluded excl dstFile = true := by
  unfold excluded
  rw [List.any_eq_true]
  refine ⟨ext, hmem, ?_⟩
  have := rfindAux_occurrence ext.data dstFile.data 0 npos ⟨a, b, hocc⟩
  unfold rfind
  simp only [bne_iff_ne, ne_eq]
  omega

theorem findLastOfAux_range (chars : List Char) :
    ∀ (s : List Char) (i found : Nat),
      findLastOfAux chars s i found = found ∨
        (i ≤ findLastOfAux chars s i found ∧ findLastOfAux chars s i found < i + s.length) := by
  intro s
  induction s with
  | nil => intro i found; simp [findLastOfAux]
  | cons c cs ih =>
    intro i found
    simp only [findLastOfAux, List.length_cons]
    by_cases h : c ∈ chars
    · simp only [h, if_true]
      rcases ih (i + 1) i with h2 | h2
      · right
        rw [h2]
        omega
      · right
        omega
    · simp only [h, if_false]
      rcases ih (i + 1) found with h2 | h2
      · exact Or.inl h2
      · right
        omega

/-- Whatever the entry, `SanitizeFilenames` never appends an empty extension:
either `substr` throws, or the appended text has at least one character. -/
theorem sanitizedName_never_empty_extension (destDir filename uniqueName : String)
    (hlen : (joinPath destDir filename).data.length < npos) :
    sanitizedName destDir filename uniqueName = none ∨
    ∃ ext : String, ext.data ≠ [] ∧
      sanitizedName destDir filename uniqueName = some (uniqueName ++ ext) := by
  unfold sanitizedName
  simp only
  rcases findLastOfAux_range ".".data (joinPath destDir filename).data 0 npos with h | h
  · left
    have : substr (joinPath destDir filename) (find_last_of (joinPath destDir filename) ".")
        = none := by
      unfold substr find_last_of
      rw [h]
      simp only [gt_iff_lt, hlen, if_true]
    rw [this]
  · right
    have hlt : find_last_of (joinPath destDir filename) "."
        < (joinPath destDir filename).data.length := by
      unfold find_last_of
      omega
    refine ⟨⟨(joinPath destDir filename).data.drop
      (find_last_of (joinPath destDir filename) ".")⟩, ?_, ?_⟩
    · intro hnil
      have := congrArg List.length hnil
      simp only [List.length_drop, List.length_nil] at this
      omega
    · have : substr (joinPath destDir filename) (find_last_of (joinPath destDir filename) ".")
          = some ⟨(joinPath destDir filename).data.drop
              (find_last_of (joinPath destDir filename) ".")⟩ := by
        unfold substr
        rw [if_neg (by omega)]
      rw [this]

/-- C6 (failing input): `/final` holds two obfuscated entries with the
extension `.mkv`, the job is named `Job`, and `MakeUniqueFilename` meets its
contract.  Both renames are given the destination `/final/Job.mkv`, because
the unique name is computed before the extension is appended; the second
rename replaces what the first one put there, and the content `1` is gone. -/
theorem sanitize_renames_two_entries_to_one_name :
    (SanitizeFilenames (demoPrimitives noFaults) demoJob fsTwoObfuscated).map
        (fun l => l.moves)
      = some [⟨"b082fa0beaa644d3aa01045d5b8d0b36.mkv",
                "/final/b082fa0beaa644d3aa01045d5b8d0b36.mkv", "/final/Job.mkv", true⟩,
              ⟨"c193fb1cfbb755e4bb12156e6c9e1c47.mkv",
                "/final/c193fb1cfbb755e4bb12156e6c9e1c47.mkv", "/final/Job.mkv", true⟩] ∧
    (SanitizeFilenames (demoPrimitives noFaults) demoJob fsTwoObfuscated).map
        (fun l => l.world.files)
      = some [("/final/Job.mkv", 2)] := by
  decide

/-- C7 (counterexample): two runs of the move loop with a `MakeUniqueFilename`
that meets its contract.  (1) The intermediate directory is the final
directory `/final`, which holds `a.mkv`: the loop renames the entry, and the
path that held it holds nothing afterwards.  (2) The intermediate directory
`aaaaaaaaaaaaaaaaaax` lies inside the final directory `longDir`, which also
holds the file `aaaaaaaaaaaaaaaaaa`: the source path formatted for the entry
`f.mkv` is cut after 1023 characters to the path of that file, the loop moves
the file of the final directory, and its path holds nothing afterwards. -/
theorem move_loop_moves_entries_of_final_directory :
    SimFS.UniqueNameContract (demoPrimitives noFaults).MakeUniqueFilename ∧
    (SimFS.DirBrowser fsFinalOnly sameDirJob.destDir = ["a.mkv"] ∧
      fsFinalOnly.content (joinPath sameDirJob.destDir "a.mkv") = some 1 ∧
      (moveLoop (demoPrimitives noFaults) sameDirJob
          (SimFS.DirBrowser fsFinalOnly sameDirJob.interDir) fsFinalOnly true).world.content
        (joinPath sameDirJob.destDir "a.mkv") = none) ∧
    (nestedLongJob.interDir ≠ nestedLongJob.destDir ∧
      SimFS.DirBrowser fsNestedLong nestedLongJob.destDir
        = ["aaaaaaaaaaaaaaaaaa", "aaaaaaaaaaaaaaaaaax"] ∧
      fsNestedLong.content (joinPath nestedLongJob.destDir "aaaaaaaaaaaaaaaaaa") = some 1 ∧
      (moveLoop (demoPrimitives noFaults) nestedLongJob
          (SimFS.DirBrowser fsNestedLong nestedLongJob.interDir) fsNestedLong true).moves
        = [⟨"f.mkv", joinPath longDir "aaaaaaaaaaaaaaaaaa", joinPath longDir "f.mkv", true⟩] ∧
      (moveLoop (demoPrimitives noFaults) nestedLongJob
          (SimFS.DirBrowser fsNestedLong nestedLongJob.interDir) fsNestedLong true).world.content
        (joinPath nestedLongJob.destDir "aaaaaaaaaaaaaaaaaa") = none) :=
  ⟨SimFS.MakeUniqueFilename_contract, by decide, by decide⟩

/-- C7 (as amended): over `SimFS`, with any `MakeUniqueFilename` that returns
a free path in the directory asked for, any `MakeValidFilename` and any
injected failures, the move loop from an intermediate directory that is
neither the final directory nor inside it leaves every file below the final
directory with its content and every directory below it in place, and no
call targets a path at which something of the final directory exists; the
destinations of the successful `MoveFile` calls are pairwise distinct, lie in
the final directory, and something is found at each of them when the loop
ends; one call is made per listed entry. -/
theorem move_loop_keeps_final_directory (F : Faults)
    (U : SimFS → String → String → String) (V : String → String) (obf : String → Bool)
    (excl : List String) (hU : SimFS.UniqueNameContract U) (job : Job) (fs : SimFS) (ok : Bool)
    (hsep : SimFS.atOrUnder job.destDir job.interDir = false) :
    (∀ q, SimFS.under job.destDir q = true →
      (∀ c, fs.content q = some c →
        (moveLoop (simPrimitives F U V obf excl) job (SimFS.DirBrowser fs job.interDir)
          fs ok).world.content q = some c) ∧
      (q ∈ fs.dirs →
        q ∈ (moveLoop (simPrimitives F U V obf excl) job (SimFS.DirBrowser fs job.interDir)
          fs ok).world.dirs) ∧
      (fs.present q →
        ∀ m ∈ (moveLoop (simPrimitives F U V obf excl) job (SimFS.DirBrowser fs job.interDir)
          fs ok).moves, m.dstFile ≠ q)) ∧
    (((moveLoop (simPrimitives F U V obf excl) job (SimFS.DirBrowser fs job.interDir)
        fs ok).moves.filter (fun m => m.ok)).map MoveCall.dstFile).Nodup ∧
    (∀ m ∈ (moveLoop (simPrimitives F U V obf excl) job (SimFS.DirBrowser fs job.interDir)
        fs ok).moves, m.ok = true →
      SimFS.under job.destDir m.dstFile = true ∧
      (moveLoop (simPrimitives F U V obf excl) job (SimFS.DirBrowser fs job.interDir)
        fs ok).world.present m.dstFile) ∧
    (moveLoop (simPrimitives F U V obf excl) job (SimFS.DirBrowser fs job.interDir)
        fs ok).moves.map MoveCall.filename = SimFS.DirBrowser fs job.interDir := by
  have hnames : ∀ f ∈ SimFS.DirBrowser fs job.interDir, PATH_SEPARATOR ∉ f.data :=
    fun f hf => SimFS.DirBrowser_sep fs _ f hf
  have htargets := moveLoop_targets F U V obf excl hU job hsep
    (SimFS.DirBrowser fs job.interDir) fs ok hnames
  refine ⟨?_, htargets.1, htargets.2, (moveLoop_verdict _ job _ fs ok).2⟩
  intro q hq
  refine ⟨?_, ?_, ?_⟩
  · intro c hc
    have := moveLoop_frame F U V obf excl hU job hsep q hq
      (SimFS.DirBrowser fs job.interDir) fs ok hnames (Or.inl (by rw [hc]; rfl))
    rw [this.1]
    exact hc
  · intro hd
    exact (moveLoop_frame F U V obf excl hU job hsep q hq
      (SimFS.DirBrowser fs job.interDir) fs ok hnames (Or.inr hd)).2.1 hd
  · intro hpres
    exact (moveLoop_frame F U V obf excl hU job hsep q hq
      (SimFS.DirBrowser fs job.interDir) fs ok hnames hpres).2.2.2

/-- C7 (witness): `/final` holds `video.mkv`; `/inter` holds `video.mkv` and
`video?.mkv`, which both sanitize to `video.mkv`.  The entry of `/final` stays
and the two moved entries arrive as `.duplicate1` and `.duplicate2`. -/
theorem move_loop_keeps_final_directory_witness :
    SimFS.atOrUnder demoJob.destDir demoJob.interDir = false ∧
    (moveLoop (demoPrimitives noFaults) demoJob (SimFS.DirBrowser fsCollision demoJob.interDir)
        fsCollision true).world.files
      = [("/final/video.mkv", 1), ("/final/video.mkv.duplicate1", 2),
          ("/final/video.mkv.duplicate2", 3)] ∧
    ((∀ q, SimFS.under demoJob.destDir q = true →
      (∀ c, fsCollision.content q = some c →
        (moveLoop (demoPrimitives noFaults) demoJob
          (SimFS.DirBrowser fsCollision demoJob.interDir) fsCollision true).world.content q
            = some c) ∧
      (q ∈ fsCollision.dirs →
        q ∈ (moveLoop (demoPrimitives noFaults) demoJob
          (SimFS.DirBrowser fsCollision demoJob.interDir) fsCollision true).world.dirs) ∧
      (fsCollision.present q →
        ∀ m ∈ (moveLoop (demoPrimitives noFaults) demoJob
          (SimFS.DirBrowser fsCollision demoJob.interDir) fsCollision true).moves,
          m.dstFile ≠ q)) ∧
    (((moveLoop (demoPrimitives noFaults) demoJob (SimFS.DirBrowser fsCollision demoJob.interDir)
        fsCollision true).moves.filter (fun m => m.ok)).map MoveCall.dstFile).Nodup ∧
    (∀ m ∈ (moveLoop (demoPrimitives noFaults) demoJob
        (SimFS.DirBrowser fsCollision demoJob.interDir) fsCollision true).moves, m.ok = true →
      SimFS.under demoJob.destDir m.dstFile = true ∧
      (moveLoop (demoPrimitives noFaults) demoJob
        (SimFS.DirBrowser fsCollision demoJob.interDir) fsCollision true).world.present
          m.dstFile) ∧
    (moveLoop (demoPrimitives noFaults) demoJob (SimFS.DirBrowser fsCollision demoJob.interDir)
        fsCollision true).moves.map MoveCall.filename
      = SimFS.DirBrowser fsCollision demoJob.interDir) :=
  ⟨by decide, by decide,
    move_loop_keeps_final_directory noFaults SimFS.MakeUniqueFilename dropIllegal hexName
      [".par2"] SimFS.MakeUniqueFilename_contract demoJob fsCollision true (by decide)⟩

/-- C9 (failing input): the final directory is `/downloads/my.par2.set`, the
exclusion list holds `.par2`, and the obfuscated entry has the extension
`.mkv`.  The destination `/downloads/my.par2.set/Job.mkv` does not end with
`.par2`, yet the test of `SanitizeFilenames` excludes it, since `rfind` finds
`.par2` inside the directory path, and no rename is made. -/
theorem sanitize_skips_when_extension_occurs_inside_path :
    sanitizedName par2DirJob.destDir "b082fa0beaa644d3aa01045d5b8d0b36.mkv"
        ((demoPrimitives noFaults).MakeUniqueFilename fsPar2Dir par2DirJob.destDir
          par2DirJob.name)
      = some "/downloads/my.par2.set/Job.mkv" ∧
    (".par2".data.isSuffixOf "/downloads/my.par2.set/Job.mkv".data) = false ∧
    rfind "/downloads/my.par2.set/Job.mkv" ".par2" = 13 ∧
    excluded (demoPrimitives noFaults).EXCLUDED_EXTENSIONS "/downloads/my.par2.set/Job.mkv"
      = true ∧
    (SanitizeFilenames (demoPrimitives noFaults) par2DirJob fsPar2Dir).map (fun l => l.moves)
      = some [] := by
  decide

/-- C10 (failing inputs): for an obfuscated entry without `.` in its name,
the extension is cut out of the full source path.  With the final directory
`/final/My.Show` it is `.Show/b082…`, text of the directory path and the
separator included; with the final directory `/final/Job` there is no `.` at
all, `find_last_of` returns `npos` and `substr` throws. -/
theorem sanitize_extension_taken_from_full_path :
    find_last_of (joinPath "/final/My.Show" "b082fa0beaa644d3aa01045d5b8d0b36") "." = 9 ∧
    substr (joinPath "/final/My.Show" "b082fa0beaa644d3aa01045d5b8d0b36") 9
      = some ".Show/b082fa0beaa644d3aa01045d5b8d0b36" ∧
    sanitizedName "/final/My.Show" "b082fa0beaa644d3aa01045d5b8d0b36" "/final/My.Show/Job"
      = some "/final/My.Show/Job.Show/b082fa0beaa644d3aa01045d5b8d0b36" ∧
    find_last_of (joinPath "/final/Job" "b082fa0beaa644d3aa01045d5b8d0b36") "." = npos ∧
    substr (joinPath "/final/Job" "b082fa0beaa644d3aa01045d5b8d0b36") npos = none ∧
    sanitizedName "/final/Job" "b082fa0beaa644d3aa01045d5b8d0b36" "/final/Job/Job" = none := by
  decide

end MoveController
